import Mathlib

/-!
Verification of the AI-Guard masking core (backend/app/services/guard_service.py,
backend/app/utils/token_manager.py, backend/app/services/pii_detector_french.py,
backend/app/utils/entity_mapping.py, backend/app/database/db_manager.py).

Python strings are embedded as `List Char` (a Python `str` is a sequence of
Unicode code points, which matches `List Char` exactly).  Python `int` is `Int`,
detector confidence floats are embedded as `Rat` (they are only ever compared,
never combined arithmetically, and all values appearing in the code are decimal
literals).  A detected-entity dict is embedded as a structure with `Option`
fields, one per dict key used by the code, so that the `all(k in e for ...)`
presence checks of `generate_tokens` can be expressed faithfully.
-/

set_option maxRecDepth 20000

namespace AIGuard

/-- Code points of a Lean string literal; used to transcribe Python string
literals into the `List Char` embedding. -/
def str (s : String) : List Char := s.data

/-! ## Python primitives: slicing, `str.replace`, stable `list.sort` -/

/-- Clamp an index for Python slice semantics on a sequence of length `n`:
negative indices count from the end, then the index is clamped to `[0, n]`. -/
def pyIdx (n : Nat) (i : Int) : Nat :=
  if i < 0 then ((n : Int) + i).toNat else min i.toNat n

/-- Python slice `s[a:b]` (step 1). -/
def pySlice (s : List Char) (a b : Int) : List Char :=
  (s.drop (pyIdx s.length a)).take (pyIdx s.length b - pyIdx s.length a)

/-- Python slice `s[a:]`. -/
def pySliceFrom (s : List Char) (a : Int) : List Char :=
  pySlice s a s.length

/-- Worker for `pyReplace`: scan left to right; in state `skip = 0` test the
(nonempty) pattern at the current position and on a match emit `rep` and enter
a skip state covering the rest of the matched occurrence, so scanning resumes
after it, exactly like CPython `str.replace`.  Structurally recursive on the
scanned list so that the kernel can evaluate it. -/
def pyGo (pat rep : List Char) : List Char → Nat → List Char
  | [], _ => []
  | _ :: cs, n + 1 => pyGo pat rep cs n
  | c :: cs, 0 =>
    if pat.isPrefixOf (c :: cs) then
      rep ++ pyGo pat rep cs (pat.length - 1)
    else
      c :: pyGo pat rep cs 0

/-- Python `s.replace(pat, rep)` (all occurrences).  For an empty pattern,
CPython inserts `rep` before every character and at the end. -/
def pyReplace (s pat rep : List Char) : List Char :=
  match pat with
  | [] => rep ++ s.flatMap (fun c => c :: rep)
  | _ :: _ => pyGo pat rep s 0

/-- Stable insertion used to model Python `list.sort(key=...)`: an element is
placed after all existing elements that compare `le` to it, so elements with
equal keys keep their original relative order. -/
def insertLe (le : α → α → Bool) (x : α) : List α → List α
  | [] => [x]
  | y :: ys => if le y x then y :: insertLe le x ys else x :: y :: ys

/-- Python `list.sort` with a boolean `le` comparison derived from the sort
key.  Python guarantees a stable sort; a stable sort is extensionally unique,
so stable insertion sort is a faithful model of Timsort. -/
def pySortBy (le : α → α → Bool) (l : List α) : List α :=
  l.foldl (fun acc x => insertLe le x acc) []

/-! ## The entity dict and `GuardService.generate_tokens`
(backend/app/services/guard_service.py, lines 71-129)

A detected-entity dict is projected onto the keys the masking code reads:
`start`, `end`, `text`, `type`, `source`, `confidence` (other keys such as
`guard_type`, `presidio_type`, `field_info` are never read by
`generate_tokens` and are not modelled).  Every field is an `Option` because
`generate_tokens` explicitly checks key presence.  `end` is a Lean keyword, so
the field is named `end_`; `.get(k, d)` accesses are `Option.getD`. -/

structure PyEntity where
  start : Option Int
  end_ : Option Int
  text : Option (List Char)
  type : Option (List Char)
  source : Option (List Char) := none
  confidence : Option Rat := none
  deriving DecidableEq, Repr

/-- Line 80: `all(k in e for k in ('start','end','text','type')) and
e['start'] < e['end']`. -/
def validEnt (e : PyEntity) : Bool :=
  e.start.isSome && e.end_.isSome && e.text.isSome && e.type.isSome &&
    decide (e.start.getD 0 < e.end_.getD 0)

/-- Lines 85-90: `score(ent) = (base, conf, length)` with
`base = 1000 if ent.get('source') == 'regex_db' else 0`,
`conf = ent.get('confidence', 0.0)`, `length = end - start`. -/
def entScore (e : PyEntity) : Int × Rat × Int :=
  ( if e.source = some (str "regex_db") then 1000 else 0
  , e.confidence.getD 0
  , e.end_.getD 0 - e.start.getD 0 )

/-- Line 93 sort key comparison:
`(-score[0], -score[1], -score[2], start)` compared lexicographically. -/
def scoreLe (a b : PyEntity) : Bool :=
  let sa := entScore a
  let sb := entScore b
  decide (-sa.1 < -sb.1) ||
    (decide (sa.1 = sb.1) &&
      (decide (-sa.2.1 < -sb.2.1) ||
        (decide (sa.2.1 = sb.2.1) &&
          (decide (-sa.2.2 < -sb.2.2) ||
            (decide (sa.2.2 = sb.2.2) &&
              decide (a.start.getD 0 ≤ b.start.getD 0))))))

/-- Lines 97-101: an entity overlaps the `occupied` list when some occupied
span `(s, e)` fails `ent['end'] <= s or ent['start'] >= e`. -/
def overlapsOcc (ent : PyEntity) (occ : List (Int × Int)) : Bool :=
  occ.any (fun se =>
    !(decide (ent.end_.getD 0 ≤ se.1) || decide (ent.start.getD 0 ≥ se.2)))

/-- Lines 94-104: greedy selection over the score-sorted list, keeping an
entity only when it overlaps no previously occupied span. -/
def selectLoop : List PyEntity → List PyEntity → List (Int × Int) → List PyEntity
  | [], sel, _ => sel
  | ent :: rest, sel, occ =>
    if overlapsOcc ent occ then
      selectLoop rest sel occ
    else
      selectLoop rest (sel ++ [ent]) (occ ++ [(ent.start.getD 0, ent.end_.getD 0)])

/-- Line 107 sort key comparison: ascending `start`. -/
def startLe (a b : PyEntity) : Bool :=
  decide (a.start.getD 0 ≤ b.start.getD 0)

/-- The entity list actually substituted by the tokenization pass: filter
(line 80), sort by score (line 93), greedy overlap removal (lines 94-104),
sort ascending by `start` (line 107). -/
def selectedOf (entities : List PyEntity) : List PyEntity :=
  pySortBy startLe (selectLoop (pySortBy scoreLe (entities.filter validEnt)) [] [])

/-! ## SHA-256 (hashlib.sha256) and `TokenManager.generate_token`
(backend/app/utils/token_manager.py, lines 9-14)

Executable SHA-256 over the UTF-8 bytes of the input, words as `Nat` reduced
modulo `2 ^ 32`. -/

/-- Truncate to a 32-bit word. -/
def u32 (n : Nat) : Nat := n % 4294967296

/-- 32-bit right rotation. -/
def rotr (n x : Nat) : Nat := u32 ((x >>> n) ||| (x <<< (32 - n)))

/-- SHA-256 small sigma 0. -/
def ssig0 (x : Nat) : Nat := (rotr 7 x) ^^^ (rotr 18 x) ^^^ (x >>> 3)

/-- SHA-256 small sigma 1. -/
def ssig1 (x : Nat) : Nat := (rotr 17 x) ^^^ (rotr 19 x) ^^^ (x >>> 10)

/-- SHA-256 big sigma 0. -/
def bsig0 (x : Nat) : Nat := (rotr 2 x) ^^^ (rotr 13 x) ^^^ (rotr 22 x)

/-- SHA-256 big sigma 1. -/
def bsig1 (x : Nat) : Nat := (rotr 6 x) ^^^ (rotr 11 x) ^^^ (rotr 25 x)

/-- SHA-256 round constants (FIPS 180-4), as decimal literals. -/
def shaK : List Nat :=
  [ 1116352408, 1899447441, 3049323471, 3921009573, 961987163,
    1508970993, 2453635748, 2870763221, 3624381080, 310598401,
    607225278, 1426881987, 1925078388, 2162078206, 2614888103,
    3248222580, 3835390401, 4022224774, 264347078, 604807628,
    770255983, 1249150122, 1555081692, 1996064986, 2554220882,
    2821834349, 2952996808, 3210313671, 3336571891, 3584528711,
    113926993, 338241895, 666307205, 773529912, 1294757372,
    1396182291, 1695183700, 1986661051, 2177026350, 2456956037,
    2730485921, 2820302411, 3259730800, 3345764771, 3516065817,
    3600352804, 4094571909, 275423344, 430227734, 506948616,
    659060556, 883997877, 958139571, 1322822218, 1537002063,
    1747873779, 1955562222, 2024104815, 2227730452, 2361852424,
    2428436474, 2756734187, 3204031479, 3329325298 ]

/-- The eight working variables of the compression function. -/
structure Hash8 where
  a : Nat
  b : Nat
  c : Nat
  d : Nat
  e : Nat
  f : Nat
  g : Nat
  h : Nat
  deriving Repr

/-- SHA-256 initial hash value (FIPS 180-4), as decimal literals. -/
def shaH0 : Hash8 :=
  ⟨1779033703, 3144134277, 1013904242, 2773480762,
   1359893119, 2600822924, 528734635, 1541459225⟩

/-- One round of the SHA-256 compression function. -/
def shaRound (st : Hash8) (k w : Nat) : Hash8 :=
  let t1 := u32 (st.h + bsig1 st.e + ((st.e &&& st.f) ^^^ ((4294967295 ^^^ st.e) &&& st.g)) + k + w)
  let t2 := u32 (bsig0 st.a + ((st.a &&& st.b) ^^^ (st.a &&& st.c) ^^^ (st.b &&& st.c)))
  ⟨u32 (t1 + t2), st.a, st.b, st.c, u32 (st.d + t1), st.e, st.f, st.g⟩

/-- Extend the 16 message words of one block to 64 schedule words. -/
def wExtend : Nat → List Nat → List Nat
  | 0, w => w
  | n + 1, w =>
    wExtend n (w ++ [u32 (w.getD (w.length - 16) 0 + ssig0 (w.getD (w.length - 15) 0)
      + w.getD (w.length - 7) 0 + ssig1 (w.getD (w.length - 2) 0))])

/-- Process one 16-word block. -/
def shaBlock (st : Hash8) (block : List Nat) : Hash8 :=
  let w := wExtend 48 block
  let r := (shaK.zip w).foldl (fun s kw => shaRound s kw.1 kw.2) st
  ⟨u32 (st.a + r.a), u32 (st.b + r.b), u32 (st.c + r.c), u32 (st.d + r.d),
   u32 (st.e + r.e), u32 (st.f + r.f), u32 (st.g + r.g), u32 (st.h + r.h)⟩

/-- Pack bytes into big-endian 32-bit words (4 bytes per word). -/
def packWords : List Nat → List Nat
  | b0 :: b1 :: b2 :: b3 :: rest =>
    (((b0 * 256 + b1) * 256 + b2) * 256 + b3) :: packWords rest
  | _ => []

/-- Split a word list into 16-word blocks (padded input is always a multiple
of 16 words; a shorter trailing remnant would become its own block). -/
def blocksOf : List Nat → List (List Nat)
  | [] => []
  | w0 :: w1 :: w2 :: w3 :: w4 :: w5 :: w6 :: w7 ::
      w8 :: w9 :: w10 :: w11 :: w12 :: w13 :: w14 :: w15 :: rest =>
    [w0, w1, w2, w3, w4, w5, w6, w7, w8, w9, w10, w11, w12, w13, w14, w15] ::
      blocksOf rest
  | ws => [ws]

/-- SHA-256 padding: append `0x80`, zero bytes, and the 64-bit big-endian bit
length, reaching a multiple of 64 bytes. -/
def shaPad (msg : List Nat) : List Nat :=
  let n := msg.length
  let zeros := (55 + 64 - n % 64) % 64
  let bitLen := n * 8
  msg ++ [0x80] ++ List.replicate zeros 0 ++
    [ bitLen / 72057594037927936 % 256, bitLen / 281474976710656 % 256,
      bitLen / 1099511627776 % 256, bitLen / 4294967296 % 256,
      bitLen / 16777216 % 256, bitLen / 65536 % 256,
      bitLen / 256 % 256, bitLen % 256 ]

/-- SHA-256 of a byte list: the eight final hash words. -/
def sha256 (msg : List Nat) : Hash8 :=
  (blocksOf (packWords (shaPad msg))).foldl shaBlock shaH0

/-- Lowercase hex digit (as produced by `hexdigest`). -/
def hexDigit (n : Nat) : Char :=
  if n < 10 then Char.ofNat (48 + n) else if n < 16 then Char.ofNat (87 + n) else '0'

/-- Eight lowercase hex digits of one 32-bit word, most significant first. -/
def wordHex (x : Nat) : List Char :=
  [ hexDigit (x / 268435456 % 16), hexDigit (x / 16777216 % 16),
    hexDigit (x / 1048576 % 16), hexDigit (x / 65536 % 16),
    hexDigit (x / 4096 % 16), hexDigit (x / 256 % 16),
    hexDigit (x / 16 % 16), hexDigit (x % 16) ]

/-- `hashlib.sha256(...).hexdigest()[:16]`: the first 16 hex characters, i.e.
the first two hash words in hex. -/
def sha256hex16 (msg : List Nat) : List Char :=
  wordHex (sha256 msg).a ++ wordHex (sha256 msg).b

/-- UTF-8 encoding of one code point (`str.encode('utf-8')`). -/
def utf8Char (c : Char) : List Nat :=
  let n := c.toNat
  if n < 128 then [n]
  else if n < 2048 then [192 ||| (n >>> 6), 128 ||| (n &&& 63)]
  else if n < 65536 then
    [224 ||| (n >>> 12), 128 ||| ((n >>> 6) &&& 63), 128 ||| (n &&& 63)]
  else
    [240 ||| (n >>> 18), 128 ||| ((n >>> 12) &&& 63),
     128 ||| ((n >>> 6) &&& 63), 128 ||| (n &&& 63)]

/-- UTF-8 bytes of a string. -/
def utf8 (s : List Char) : List Nat := s.flatMap utf8Char

/-- `TokenManager.generate_token`:
`"TOKEN_" + sha256((key + "_" + data).encode("utf-8")).hexdigest()[:16]`. -/
def generate_token (key data : List Char) : List Char :=
  str "TOKEN_" ++ sha256hex16 (utf8 (key ++ str "_" ++ data))

/-- The default `GuardService` secret key (guard_service.py line 9). -/
def guardKey : List Char := str "ia_guards_secret_2025"

/-! ## Masking and unmasking (guard_service.py, lines 109-129) -/

/-- The token map: a Python dict with string keys in insertion order. -/
abbrev TokenDict : Type := List (List Char × List Char)

/-- Python dict assignment `d[k] = v`: overwrite in place when the key exists
(keeping its position), otherwise append. -/
def dictInsert (d : TokenDict) (k v : List Char) : TokenDict :=
  if d.any (fun e => e.1 = k) then
    d.map (fun e => if e.1 = k then (k, v) else e)
  else
    d ++ [(k, v)]

/-- Line 116: `f"<{ent['type']}:{generate_token(seg)} >".replace(' >', '>')`. -/
def mkToken (key ty seg : List Char) : List Char :=
  pyReplace (str "<" ++ ty ++ str ":" ++ generate_token key seg ++ str " >")
    (str " >") (str ">")

/-- Lines 110-121: the single reconstruction pass over the selected entities,
accumulating `out_parts`, the `tokens` dict and the cursor. -/
def emitLoop (key text : List Char) :
    List PyEntity → Int → List (List Char) → TokenDict → List (List Char) × TokenDict
  | [], cursor, parts, toks =>
    (if cursor < (text.length : Int) then parts ++ [pySliceFrom text cursor] else parts,
     toks)
  | ent :: rest, cursor, parts, toks =>
    let s := ent.start.getD 0
    let e := ent.end_.getD 0
    let parts1 := if s > cursor then parts ++ [pySlice text cursor s] else parts
    let seg := pySlice text s e
    let tok := mkToken key (ent.type.getD []) seg
    emitLoop key text rest e (parts1 ++ [tok]) (dictInsert toks tok seg)

/-- `GuardService.generate_tokens` (guard_service.py lines 71-123),
parameterized by the `TokenManager` secret key. -/
def generate_tokens (key text : List Char) (entities : List PyEntity) :
    List Char × TokenDict :=
  if entities.filter validEnt = [] then (text, [])
  else ((emitLoop key text (selectedOf entities) 0 [] []).1.flatten,
        (emitLoop key text (selectedOf entities) 0 [] []).2)

/-- `GuardService.unmask` (guard_service.py lines 125-129): replace each
token by its original, iterating the dict in insertion order. -/
def unmask (text : List Char) (tokens : TokenDict) : List Char :=
  tokens.foldl (fun t kv => pyReplace t kv.1 kv.2) text

/-! ## Detector-level entities (pii_detector_french.py)

Detector-produced entity dicts always carry `text`, `type`, `start`, `end`
and `source`; `confidence` may be absent (the BERT fallback omits it), hence
`Option`.  Keys never read by the merge or cvv logic (`guard_type`,
`presidio_type`, `field_info`) are not modelled. -/

structure DEntity where
  text : List Char
  type : List Char
  start : Int
  end_ : Int
  source : List Char
  confidence : Option Rat := none
  deriving DecidableEq, Repr

/-- ASCII/Latin-1 lowercasing of one code point, as `str.lower()` acts on the
characters appearing in this code base (A-Z and the Latin-1 uppercase letters;
other characters are unchanged). -/
def pyLowerCh (c : Char) : Char :=
  if 'A' ≤ c && c ≤ 'Z' then Char.ofNat (c.toNat + 32)
  else if 'À' ≤ c && c ≤ 'Þ' && c ≠ '×' then Char.ofNat (c.toNat + 32)
  else c

/-- `str.lower()`. -/
def pyLower (s : List Char) : List Char := s.map pyLowerCh

/-- ASCII/Latin-1 uppercasing of one code point, as `str.upper()` acts on the
characters appearing in this code base; `ß` expands to `SS` and `ÿ` maps to
`Ÿ`, as in CPython. -/
def pyUpperCh (c : Char) : List Char :=
  if c = 'ß' then ['S', 'S']
  else if c = 'ÿ' then ['Ÿ']
  else if 'a' ≤ c && c ≤ 'z' then [Char.ofNat (c.toNat - 32)]
  else if 'à' ≤ c && c ≤ 'þ' && c ≠ '÷' then [Char.ofNat (c.toNat - 32)]
  else [c]

/-- `str.upper()`. -/
def pyUpper (s : List Char) : List Char := s.flatMap pyUpperCh

/-- The whitespace characters stripped and matched by `\s` (ASCII set; the
texts and patterns in this code base contain no exotic Unicode whitespace). -/
def isPySpace (c : Char) : Bool :=
  c = ' ' || c = '\t' || c = '\n' || c = '\r' || c = '\x0b' || c = '\x0c'

/-- `str.strip()` with default (whitespace) separators. -/
def pyStrip (s : List Char) : List Char :=
  ((s.dropWhile isPySpace).reverse.dropWhile isPySpace).reverse

/-! ## CVV regex detection (pii_detector_french.py, lines 430-512)

`_detect_with_regex` compiles the configured pattern and iterates the
non-overlapping, left-to-right matches produced by `re.finditer`.  The regex
engine is external; for the bare generic digit pattern of the cvv claim its
matches are computed by `findRuns` below, and the per-field loop body is
embedded with the match list passed explicitly. -/

/-- A configured regex field as seen by the detection loop: its `field_name`
and its resolved `pattern` text. -/
structure PiiField where
  field_name : List Char
  pattern : List Char
  deriving DecidableEq, Repr

/-- The bare generic digit pattern `\d{3,4}` (line 481). -/
def bareDigitPattern : List Char := str "\\d\x7b3,4\x7d"

/-- `re.finditer(r'\d{3,4}', text)` (case-insensitivity is irrelevant for
digits): scan left to right; at each position match greedily four digits if
available, else three, and resume after the match; on failure advance one
character.  Spans are half-open `[s, e)` counted from `i`. -/
def findRuns : List Char → Nat → List (Nat × Nat)
  | [], _ => []
  | [_], _ => []
  | [_, _], _ => []
  | [c0, c1, c2], i =>
    if c0.isDigit && c1.isDigit && c2.isDigit then [(i, i + 3)] else []
  | c0 :: c1 :: c2 :: c3 :: rest, i =>
    if c0.isDigit && c1.isDigit && c2.isDigit then
      if c3.isDigit then (i, i + 4) :: findRuns rest (i + 4)
      else (i, i + 3) :: findRuns (c3 :: rest) (i + 3)
    else
      findRuns (c1 :: c2 :: c3 :: rest) (i + 1)

/-- `re.fullmatch(r'19\d\d|20\d\d', val)` (line 472). -/
def isYear (v : List Char) : Bool :=
  match v with
  | ['1', '9', a, b] => a.isDigit && b.isDigit
  | ['2', '0', a, b] => a.isDigit && b.isDigit
  | _ => false

/-- One-or-more whitespace then the rest, for `\s+`: the following literal in
both uses is a non-space, so consuming the maximal whitespace run is
equivalent to the backtracking semantics. -/
def skipSpaces1 : List Char → Option (List Char)
  | [] => none
  | c :: cs => if isPySpace c then some (cs.dropWhile isPySpace) else none

/-- Match of `s[eé]curit[ée]` at the head of the list. -/
def securiteAt : List Char → Bool
  | 's' :: e1 :: 'c' :: 'u' :: 'r' :: 'i' :: 't' :: e2 :: _ =>
    (e1 = 'e' || e1 = 'é') && (e2 = 'e' || e2 = 'é')
  | _ => false

/-- Match of `code\s+de\s+s[eé]curit[ée]` at the head of the list. -/
def codeDeSecAt (l : List Char) : Bool :=
  match l with
  | 'c' :: 'o' :: 'd' :: 'e' :: rest =>
    match skipSpaces1 rest with
    | none => false
    | some r1 =>
      match r1 with
      | 'd' :: 'e' :: r2 =>
        match skipSpaces1 r2 with
        | none => false
        | some r3 => securiteAt r3
      | _ => false
  | _ => false

/-- Some alternative of `(cvv|cvc|code\s+de\s+s[eé]curit[ée]|s[eé]curit[ée])`
matches at the head of the list. -/
def triggerAt (l : List Char) : Bool :=
  (str "cvv").isPrefixOf l || (str "cvc").isPrefixOf l || codeDeSecAt l || securiteAt l

/-- `re.search` of the trigger alternation: a match starting at some
position. -/
def hasTrigger : List Char → Bool
  | [] => false
  | c :: cs => triggerAt (c :: cs) || hasTrigger cs

/-- Lines 476-477: the 40-character lookback window before position `s`,
lowercased: `text[max(0, s-40):s].lower()`. -/
def cvvContext (text : List Char) (s : Nat) : List Char :=
  pyLower (pySlice text (max 0 ((s : Int) - 40)) s)

/-- Line 469: the matched span touches another digit on either side:
`(s > 0 and text[s-1].isdigit()) or (e < len(text) and text[e].isdigit())`. -/
def touchesDigit (text : List Char) (s e : Nat) : Bool :=
  (decide (0 < s) && (text.getD (s - 1) ' ').isDigit) ||
    (decide (e < text.length) && (text.getD e ' ').isDigit)

/-- The detection confidence 0.9 assigned to `regex_db` entities, as the
exact rational 9/10 (the Python code uses the float literal 0.9, only ever
compared with other such literals). -/
def conf09 : Rat := ⟨9, 10, by decide, by decide⟩

/-- The loop body of `_detect_with_regex` for one configured regex field
(lines 463-493): each `finditer` span `[s, e)` with value `text[s:e]` passes
the cvv guards (lines 467-481) when the field is named `cvv`, and becomes a
`regex_db` entity with confidence 0.9 (`val` and the guard condition are
inlined). -/
def detectFieldRegex (text : List Char) (field : PiiField)
    (ms : List (Nat × Nat)) : List DEntity :=
  ms.filterMap (fun se =>
    if (if field.field_name = str "cvv" then
          if touchesDigit text se.1 se.2 then false
          else if isYear (pySlice text (se.1 : Int) (se.2 : Int)) then false
          else if !hasTrigger (cvvContext text se.1) &&
              field.pattern = bareDigitPattern then false
          else true
        else true) then
      some { text := pySlice text (se.1 : Int) (se.2 : Int),
             type := field.field_name, start := (se.1 : Int),
             end_ := (se.2 : Int), source := str "regex_db",
             confidence := some conf09 }
    else none)

/-! ## Entity merging (pii_detector_french.py, lines 588-644) -/

/-- Line 612: the name-like type group `['name', 'full_name', 'firstname']`. -/
def nameLike (t : List Char) : Bool :=
  t = str "name" || t = str "full_name" || t = str "firstname"

/-- Line 594 sort key comparison: `(x['start'], -x['end'])` lexicographic. -/
def mergeKeyLe (a b : DEntity) : Bool :=
  decide (a.start < b.start) ||
    (decide (a.start = b.start) && decide (-a.end_ ≤ -b.end_))

/-- Lines 602-603: classic span overlap
`entity['start'] < merged['end'] and entity['end'] > merged['start']`. -/
def overlapStrict (e m : DEntity) : Bool :=
  decide (e.start < m.end_) && decide (e.end_ > m.start)

/-- Lines 605-606: keep the incoming entity when it has a better score or is
longer. -/
def mergeBetter (e m : DEntity) : Bool :=
  decide (e.confidence.getD 0 > m.confidence.getD 0) ||
    decide (e.end_ - e.start > m.end_ - m.start)

/-- Lines 618-626: fuse two adjacent name entities. -/
def fuseNames (m e : DEntity) : DEntity :=
  { text := m.text ++ [' '] ++ e.text
  , type := str "name"
  , start := m.start
  , end_ := e.end_
  , source := str "merged_names"
  , confidence := some (max (e.confidence.getD 0) (m.confidence.getD 0)) }

/-- Lines 599-629: scan the accumulated `merged` list for the first element
that either overlaps the incoming entity (replace it with the better of the
two) or is an adjacent name (fuse); `none` when no element matches, in which
case the caller appends. -/
def scanMerge (e : DEntity) : List DEntity → Option (List DEntity)
  | [] => none
  | m :: rest =>
    if overlapStrict e m then
      some ((if mergeBetter e m then e else m) :: rest)
    else if nameLike e.type && nameLike m.type
        && decide (0 ≤ e.start - m.end_) && decide (e.start - m.end_ ≤ 5) then
      some (fuseNames m e :: rest)
    else
      (scanMerge e rest).map (m :: ·)

/-- One iteration of the outer loop of `_merge_entities`. -/
def mergeFold (merged : List DEntity) (e : DEntity) : List DEntity :=
  match scanMerge e merged with
  | some l => l
  | none => merged ++ [e]

/-- Lines 634-641: drop exact duplicates keyed by
`(text.lower(), type, start, end)`, keeping first occurrences. -/
def dedupEnts (seen : List (List Char × List Char × Int × Int)) :
    List DEntity → List DEntity
  | [] => []
  | e :: rest =>
    let k := (pyLower e.text, e.type, e.start, e.end_)
    if seen.contains k then dedupEnts seen rest
    else e :: dedupEnts (seen ++ [k]) rest

/-- `PIIDetectorFrench._merge_entities` (lines 588-644). -/
def merge_entities (entities : List DEntity) : List DEntity :=
  if entities = [] then []
  else dedupEnts [] ((pySortBy mergeKeyLe entities).foldl mergeFold [])

/-! ## Entity canonicalisation (backend/app/utils/entity_mapping.py) -/

/-- `CANONICAL_ENTITIES` (lines 17-29). -/
def canonicalEntities : List (List Char) :=
  [ str "EMAIL_ADDRESS", str "PHONE_NUMBER", str "CREDIT_CARD", str "US_SSN",
    str "DATE_TIME", str "PERSON", str "LOCATION", str "ORGANIZATION",
    str "IP_ADDRESS", str "IBAN", str "URL" ]

/-- `_SYNONYM_MAPPING` (lines 32-103). -/
def synonymMapping : List (List Char × List Char) :=
  [ (str "EMAIL", str "EMAIL_ADDRESS"), (str "MAIL", str "EMAIL_ADDRESS"),
    (str "COURRIEL", str "EMAIL_ADDRESS"), (str "E_MAIL", str "EMAIL_ADDRESS"),
    (str "E_MAIL_ADDRESS", str "EMAIL_ADDRESS"),
    (str "PHONE", str "PHONE_NUMBER"), (str "TELEPHONE", str "PHONE_NUMBER"),
    (str "MOBILE", str "PHONE_NUMBER"), (str "TÉLÉPHONE", str "PHONE_NUMBER"),
    (str "NUMERO_TELEPHONE", str "PHONE_NUMBER"),
    (str "NUMÉRO_TÉLÉPHONE", str "PHONE_NUMBER"),
    (str "CREDIT_CARD_NUMBER", str "CREDIT_CARD"),
    (str "CARD_NUMBER", str "CREDIT_CARD"), (str "CB", str "CREDIT_CARD"),
    (str "NUMERO_CARTE", str "CREDIT_CARD"),
    (str "NUMÉRO_CARTE", str "CREDIT_CARD"),
    (str "CARTE_BANCAIRE", str "CREDIT_CARD"),
    (str "SOCIAL_SECURITY_NUMBER", str "US_SSN"),
    (str "SOCIAL_SECURITY", str "US_SSN"), (str "SSN", str "US_SSN"),
    (str "SECURITE_SOCIALE", str "US_SSN"),
    (str "NUMERO_SECURITE_SOCIALE", str "US_SSN"),
    (str "NUMÉRO_SÉCURITÉ_SOCIALE", str "US_SSN"),
    (str "DATE_OF_BIRTH", str "DATE_TIME"), (str "BIRTH_DATE", str "DATE_TIME"),
    (str "DOB", str "DATE_TIME"), (str "DATE", str "DATE_TIME"),
    (str "PERSON_NAME", str "PERSON"), (str "FULL_NAME", str "PERSON"),
    (str "NAME", str "PERSON"), (str "PER", str "PERSON"),
    (str "PERSONNE", str "PERSON"), (str "NOM", str "PERSON"),
    (str "PRENOM", str "PERSON"), (str "PRÉNOM", str "PERSON"),
    (str "ADDRESS", str "LOCATION"), (str "PLACE", str "LOCATION"),
    (str "LOC", str "LOCATION"), (str "GPE", str "LOCATION"),
    (str "ADRESSE", str "LOCATION"), (str "ADRESSE_POSTALE", str "LOCATION"),
    (str "LOCALISATION", str "LOCATION"), (str "VILLE", str "LOCATION"),
    (str "CODE_POSTAL", str "LOCATION"),
    (str "ORG", str "ORGANIZATION"), (str "COMPANY", str "ORGANIZATION"),
    (str "ENTREPRISE", str "ORGANIZATION"), (str "SOCIETE", str "ORGANIZATION"),
    (str "SOCIÉTÉ", str "ORGANIZATION"),
    (str "BANK_ACCOUNT", str "IBAN"), (str "IBAN_CODE", str "IBAN"),
    (str "WEBSITE", str "URL"), (str "LINK", str "URL"), (str "SITE", str "URL"),
    (str "SITE_WEB", str "URL"), (str "LIEN", str "URL"),
    (str "IP", str "IP_ADDRESS"), (str "ADRESSE_IP", str "IP_ADDRESS") ]

/-- `ENTITY_MAPPING` (lines 106-109): the dict merge of the canonical
self-maps and the synonyms.  Later entries of a Python dict merge override
earlier ones, and an association-list lookup returns the first hit, so the
synonyms are listed first (the key sets are in fact disjoint). -/
def entityMapping : List (List Char × List Char) :=
  synonymMapping ++ canonicalEntities.map (fun c => (c, c))

/-- Dict lookup `ENTITY_MAPPING.get(key)`. -/
def entityLookup (k : List Char) : Option (List Char) :=
  entityMapping.lookup k

/-- The normalisation applied by `canonicalize_entity` (lines 119-121):
`label.strip().upper()` then `.replace("-", "_")`. -/
def normalizeLabel (label : List Char) : List Char :=
  pyReplace (pyUpper (pyStrip label)) ['-'] ['_']

/-- `canonicalize_entity` (lines 111-122). -/
def canonicalize_entity (label : List Char) : List Char × Bool :=
  if label = [] then ([], false)
  else
    ((entityLookup (normalizeLabel label)).getD (normalizeLabel label),
     (entityLookup (normalizeLabel label)).isSome)

/-! ## Field creation (backend/app/database/db_manager.py, lines 358-400)

The two tables touched by `create_pii_field` are embedded as row lists in
insertion (rowid) order; `next_field_id` models the sqlite rowid
allocation that `cursor.lastrowid` reports.  Columns never read by this
operation are not modelled; `is_active` defaults to 1 in the schema. -/

structure GuardTypeRow where
  id : Int
  name : List Char
  is_active : Bool
  deriving DecidableEq, Repr

structure PiiFieldRow where
  id : Int
  guard_type_id : Int
  field_name : List Char
  display_name : List Char
  detection_type : List Char
  example_value : List Char
  regex_pattern : Option (List Char)
  ner_entity_type : Option (List Char)
  is_active : Bool
  deriving DecidableEq, Repr

structure Db where
  guard_types : List GuardTypeRow
  pii_fields : List PiiFieldRow
  next_field_id : Int
  deriving DecidableEq, Repr

/-- `DatabaseManager.get_guard_type` (lines 248-257):
`SELECT ... FROM guard_types WHERE name = ? AND is_active = 1`, first row. -/
def get_guard_type (db : Db) (name : List Char) : Option GuardTypeRow :=
  db.guard_types.find? (fun g => g.name = name && g.is_active)

/-- The `WHERE guard_type_id = ? AND field_name = ? AND is_active = 1`
predicate of the idempotence check (line 372). -/
def fieldKeyMatch (gtId : Int) (fieldName : List Char) (f : PiiFieldRow) : Bool :=
  f.guard_type_id = gtId && f.field_name = fieldName && f.is_active

/-- `DatabaseManager.create_pii_field` (lines 358-400): `ValueError` when the
guard type is missing; otherwise return the id of an existing active row for
`(guard_type_id, field_name)`, or insert a new active row and return its
rowid. -/
def create_pii_field (db : Db) (guard_type_name field_name display_name
    detection_type example_value : List Char)
    (regex_pattern ner_entity_type : Option (List Char)) :
    Except (List Char) (Db × Int) :=
  match get_guard_type db guard_type_name with
  | none => .error (str "Type de protection non trouve")
  | some gt =>
    match db.pii_fields.find? (fieldKeyMatch gt.id field_name) with
    | some row => .ok (db, row.id)
    | none =>
      let row : PiiFieldRow :=
        { id := db.next_field_id, guard_type_id := gt.id,
          field_name := field_name, display_name := display_name,
          detection_type := detection_type, example_value := example_value,
          regex_pattern := regex_pattern, ner_entity_type := ner_entity_type,
          is_active := true }
      let db1 : Db :=
        { db with
          pii_fields := db.pii_fields ++ [row]
          next_field_id := db.next_field_id + 1 }
      .ok (db1, db.next_field_id)

/-! ## Auxiliary definitions used by the verification

`DisjEnt`, `spanOf` support the disjointness proof of the greedy selection;
the `Piece` abstraction describes the masked text as the interleaving of
verbatim gaps and emitted tokens that `generate_tokens` produces, which is
what the round-trip proof inducts over. -/

/-- Symmetric non-overlap of two entity spans. -/
def DisjEnt (a b : PyEntity) : Prop :=
  a.end_.getD 0 ≤ b.start.getD 0 ∨ b.end_.getD 0 ≤ a.start.getD 0

/-- The span recorded in the `occupied` list for a selected entity. -/
def spanOf (e : PyEntity) : Int × Int := (e.start.getD 0, e.end_.getD 0)

/-- A piece of the masked text: a verbatim gap, or an emitted token together
with the original segment it replaced. -/
inductive Piece where
  | plain (s : List Char)
  | tok (t o : List Char)
  deriving DecidableEq, Repr

/-- Concatenation of the pieces (tokens contribute their token string). -/
def flattenP : List Piece → List Char
  | [] => []
  | .plain s :: r => s ++ flattenP r
  | .tok t _ :: r => t ++ flattenP r

/-- The shape every emitted token has: an opening `<`, a core free of `<`
and `>`, and a closing `>`. -/
def TokShape (t : List Char) : Prop :=
  ∃ core, t = '<' :: core ++ ['>'] ∧ '<' ∉ core ∧ '>' ∉ core

/-- Well-formedness of a piece: gaps and originals carry no `<`, tokens have
the token shape. -/
def PieceOK : Piece → Prop
  | .plain s => '<' ∉ s
  | .tok t o => TokShape t ∧ '<' ∉ o

/-- Replacing one token by its original in the piece list. -/
def replTok (tk rep : List Char) : Piece → Piece
  | .plain s => .plain s
  | .tok t o => if t = tk then .plain rep else .tok t o

/-- Replacing every token by its original. -/
def plainify : Piece → Piece
  | .plain s => .plain s
  | .tok _ o => .plain o

/-- The pieces produced by the reconstruction loop of `generate_tokens` from
a cursor position: optional gap, token, recursively the rest, and the final
tail gap. -/
def piecesOf (key text : List Char) : List PyEntity → Int → List Piece
  | [], cursor =>
    if cursor < (text.length : Int) then [.plain (pySliceFrom text cursor)] else []
  | e :: rest, cursor =>
    (if e.start.getD 0 > cursor then
      [Piece.plain (pySlice text cursor (e.start.getD 0))] else []) ++
    Piece.tok
      (mkToken key (e.type.getD []) (pySlice text (e.start.getD 0) (e.end_.getD 0)))
      (pySlice text (e.start.getD 0) (e.end_.getD 0)) ::
    piecesOf key text rest (e.end_.getD 0)

/-- The `(token, segment)` pairs inserted into the token dict, in emission
order. -/
def tokStream (key text : List Char) (es : List PyEntity) :
    List (List Char × List Char) :=
  es.map (fun e =>
    (mkToken key (e.type.getD []) (pySlice text (e.start.getD 0) (e.end_.getD 0)),
     pySlice text (e.start.getD 0) (e.end_.getD 0)))

/-! ## Helper lemmas: slices -/

theorem pyIdx_nonneg {n : Nat} {i : Int} (h0 : 0 ≤ i) (hle : i ≤ (n : Int)) :
    pyIdx n i = i.toNat := by
  unfold pyIdx
  rw [if_neg (by omega)]
  exact Nat.min_eq_left (by omega)

theorem pyIdx_ge {n : Nat} {i : Int} (h : (n : Int) ≤ i) : pyIdx n i = n := by
  unfold pyIdx
  rw [if_neg (by omega)]
  exact Nat.min_eq_right (by omega)

theorem pySlice_eq_drop_take {s : List Char} {a b : Int} (h0 : 0 ≤ a)
    (hab : a ≤ b) (hb : b ≤ (s.length : Int)) :
    pySlice s a b = (s.drop a.toNat).take (b.toNat - a.toNat) := by
  unfold pySlice
  rw [pyIdx_nonneg h0 (by omega), pyIdx_nonneg (by omega) hb]

theorem pySlice_take {s : List Char} {b : Int} (h0 : 0 ≤ b)
    (hb : b ≤ (s.length : Int)) : pySlice s 0 b = s.take b.toNat := by
  rw [pySlice_eq_drop_take le_rfl h0 hb]
  simp

theorem pySlice_drop {s : List Char} {a : Int} (h0 : 0 ≤ a)
    (hb : (s.length : Int) ≤ b) : pySlice s a b = s.drop a.toNat := by
  unfold pySlice
  rcases le_or_lt a (s.length : Int) with h | h
  · rw [pyIdx_nonneg h0 h, pyIdx_ge hb]
    exact List.take_of_length_le (by rw [List.length_drop])
  · rw [pyIdx_ge (le_of_lt h), pyIdx_ge hb]
    have hnil : s.drop a.toNat = [] := List.drop_eq_nil_of_le (by omega)
    rw [hnil]
    simp

theorem pySliceFrom_eq_drop {s : List Char} {a : Int} (h0 : 0 ≤ a) :
    pySliceFrom s a = s.drop a.toNat :=
  pySlice_drop h0 le_rfl

theorem pySlice_append_slice {s : List Char} {a b c : Int} (h0 : 0 ≤ a)
    (hab : a ≤ b) (hbc : b ≤ c) (hc : c ≤ (s.length : Int)) :
    pySlice s a b ++ pySlice s b c = pySlice s a c := by
  rw [pySlice_eq_drop_take h0 hab (by omega),
    pySlice_eq_drop_take (by omega) hbc hc, pySlice_eq_drop_take h0 (by omega) hc]
  have h1 : s.drop a.toNat = (s.drop a.toNat).take (b.toNat - a.toNat) ++ s.drop b.toNat := by
    have h2 := List.take_append_drop (b.toNat - a.toNat) (s.drop a.toNat)
    rw [List.drop_drop] at h2
    have h3 : a.toNat + (b.toNat - a.toNat) = b.toNat := by omega
    rw [h3] at h2
    exact h2.symm
  have hX : ((s.drop a.toNat).take (b.toNat - a.toNat)).length = b.toNat - a.toNat := by
    rw [List.length_take, List.length_drop]
    exact Nat.min_eq_left (by omega)
  conv_rhs => rw [h1]
  rw [List.take_append_eq_append_take]
  congr 1
  · exact (List.take_of_length_le (by rw [hX]; omega)).symm
  · rw [hX]
    congr 1
    omega

theorem mem_of_mem_pySlice {s : List Char} {a b : Int} {c : Char}
    (h : c ∈ pySlice s a b) : c ∈ s := by
  unfold pySlice at h
  exact List.mem_of_mem_drop (List.mem_of_mem_take h)

/-! ## Claim C10: empty or fully-invalid entity lists -/

/-- C10: if the entity list given to `generate_tokens` is empty, or every
entity in it fails the validity filter (a missing `start`/`end`/`text`/`type`
key, or `start >= end`), then `generate_tokens` returns the original text
unchanged together with an empty token map. -/
theorem claim_C10_invalid_entities_identity (key text : List Char)
    (entities : List PyEntity) (h : ∀ e ∈ entities, validEnt e = false) :
    generate_tokens key text entities = (text, []) := by
  unfold generate_tokens
  have hf : entities.filter validEnt = [] := by
    rw [List.filter_eq_nil_iff]
    intro a ha
    simp [h a ha]
  simp [hf]

theorem claim_C10_witness :
    generate_tokens guardKey (str "abc")
      [{ start := some 1, end_ := some 1, text := some (str "b"),
         type := some (str "t") }] = (str "abc", []) :=
  claim_C10_invalid_entities_identity guardKey (str "abc") _ (by decide)

/-! ## Claim C9: out-of-bounds spans -/

/-- C9 counterexample: with `text = "ab"` and an entity spanning `[0, 5)`
(out of bounds, since `5 > len("ab")`), `generate_tokens` does not fail at
all: it returns a normally masked result in which the span was silently
clamped to `[0, 2)` by Python slicing — the output is byte-identical to
masking the in-bounds entity `[0, 2)`.  No `MalformedSpanError` (or any other
error path) exists anywhere in the code. -/
theorem claim_C9_counterexample :
    generate_tokens guardKey (str "ab")
        [{ start := some 0, end_ := some 5, text := some (str "ab"),
           type := some (str "t") }] =
      (str "<t:TOKEN_0579f2f40ab7b2df>",
        [(str "<t:TOKEN_0579f2f40ab7b2df>", str "ab")]) ∧
    generate_tokens guardKey (str "ab")
        [{ start := some 0, end_ := some 5, text := some (str "ab"),
           type := some (str "t") }] =
      generate_tokens guardKey (str "ab")
        [{ start := some 0, end_ := some 2, text := some (str "ab"),
           type := some (str "t") }] := by
  constructor
  · decide
  · decide

/-- C9 (amended): when a single entity has a `[start, end)` interval whose
`end` exceeds the text length (with `0 ≤ start ≤ len`), the mask operation
does not fail; Python slice semantics silently clamp the span, so the
original recorded for the token is the truncated suffix `text[start:]` and
the masked text is the prefix before `start` followed by the token. -/
theorem claim_C9_amended (key text : List Char) (s en : Int)
    (tx ty : List Char) (so : Option (List Char)) (co : Option Rat)
    (h0 : 0 ≤ s) (hsl : s ≤ (text.length : Int)) (hl : (text.length : Int) < en) :
    generate_tokens key text
        [{ start := some s, end_ := some en, text := some tx,
           type := some ty, source := so, confidence := co }] =
      (text.take s.toNat ++ mkToken key ty (text.drop s.toNat),
       [(mkToken key ty (text.drop s.toNat), text.drop s.toNat)]) := by
  set E : PyEntity :=
    { start := some s, end_ := some en, text := some tx,
      type := some ty, source := so, confidence := co } with hE
  have hvalid : validEnt E = true := by
    simp [validEnt, hE]
    omega
  have hfilter : [E].filter validEnt = [E] := by
    simp [hvalid]
  have hsel : selectedOf [E] = [E] := by
    unfold selectedOf
    rw [hfilter]
    simp [pySortBy, insertLe, selectLoop, overlapsOcc]
  have hseg : pySlice text s en = text.drop s.toNat :=
    pySlice_drop h0 (by omega)
  have hemit : emitLoop key text [E] 0 [] [] =
      ((if s > 0 then [pySlice text 0 s] else []) ++
        [mkToken key ty (text.drop s.toNat)],
       [(mkToken key ty (text.drop s.toNat), text.drop s.toNat)]) := by
    show emitLoop key text (E :: []) 0 [] [] = _
    rw [emitLoop]
    simp only [hE, Option.getD_some]
    rw [emitLoop]
    rw [if_neg (by omega : ¬ en < (text.length : Int))]
    rw [hseg]
    simp [dictInsert]
  unfold generate_tokens
  rw [hfilter]
  rw [if_neg (by simp)]
  rw [hsel, hemit]
  rcases lt_or_eq_of_le h0 with hpos | hzero
  · rw [if_pos (by omega)]
    rw [pySlice_take h0 hsl]
    simp
  · rw [if_neg (by omega)]
    rw [← hzero]
    simp

theorem claim_C9_amended_witness :
    generate_tokens guardKey (str "ab")
        [{ start := some 1, end_ := some 7, text := some (str "b"),
           type := some (str "t"), source := none, confidence := none }] =
      (str "a" ++ mkToken guardKey (str "t") (str "b"),
       [(mkToken guardKey (str "t") (str "b"), str "b")]) := by
  have h := claim_C9_amended guardKey (str "ab") 1 7 (str "b") (str "t")
    none none (by decide) (by decide) (by decide)
  simpa using h

/-! ## Claim C8: idempotent field creation -/

/-- Helper: `find?` over an append whose first part has no hit. -/
theorem find?_append_of_none {α : Type} {p : α → Bool} {l1 l2 : List α}
    (h : l1.find? p = none) : (l1 ++ l2).find? p = l2.find? p := by
  induction l1 with
  | nil => simp
  | cons a l ih =>
    rw [List.find?_cons] at h
    rw [List.cons_append, List.find?_cons]
    cases hpa : p a with
    | true => rw [hpa] at h; simp at h
    | false =>
      rw [hpa] at h
      simp only at h ⊢
      exact ih h

/-- Characterisation of `create_pii_field` when the guard type exists. -/
theorem create_pii_field_spec (db : Db) (g f dn dt ev : List Char)
    (rp ne : Option (List Char)) (gt : GuardTypeRow)
    (hgt : get_guard_type db g = some gt) :
    create_pii_field db g f dn dt ev rp ne =
      match db.pii_fields.find? (fieldKeyMatch gt.id f) with
      | some row => .ok (db, row.id)
      | none => .ok (Db.mk db.guard_types
          (db.pii_fields ++ [⟨db.next_field_id, gt.id, f, dn, dt, ev, rp, ne, true⟩])
          (db.next_field_id + 1), db.next_field_id) := by
  unfold create_pii_field
  split
  · next heq => rw [hgt] at heq; simp at heq
  · next gt' heq =>
    rw [hgt] at heq
    injection heq with h'
    subst h'
    rfl

/-- C8: on a database whose active guard type `g` exists, calling
`create_pii_field` twice with the same `(guardType, field_name)` pair
succeeds both times with the same field identifier, the second call leaves
the database unchanged, and the number of active rows for that key after the
first call is at most `max 1` of what it was before (so no duplicate active
row is ever created). -/
theorem claim_C8_create_pii_field_idempotent (db : Db)
    (g f dn dt ev : List Char) (rp ne : Option (List Char))
    (gt : GuardTypeRow) (hgt : get_guard_type db g = some gt) :
    ∃ db1 id1,
      create_pii_field db g f dn dt ev rp ne = .ok (db1, id1) ∧
      create_pii_field db1 g f dn dt ev rp ne = .ok (db1, id1) ∧
      db1.pii_fields.countP (fieldKeyMatch gt.id f) ≤
        max 1 (db.pii_fields.countP (fieldKeyMatch gt.id f)) := by
  rcases hfind : db.pii_fields.find? (fieldKeyMatch gt.id f) with _ | row
  · -- no active row yet: the first call inserts, the second finds the new row
    refine ⟨Db.mk db.guard_types
        (db.pii_fields ++ [⟨db.next_field_id, gt.id, f, dn, dt, ev, rp, ne, true⟩])
        (db.next_field_id + 1),
      db.next_field_id, ?_, ?_, ?_⟩
    · rw [create_pii_field_spec db g f dn dt ev rp ne gt hgt, hfind]
    · have hgt1 : get_guard_type (Db.mk db.guard_types
          (db.pii_fields ++ [⟨db.next_field_id, gt.id, f, dn, dt, ev, rp, ne, true⟩])
          (db.next_field_id + 1)) g = some gt := hgt
      rw [create_pii_field_spec _ g f dn dt ev rp ne gt hgt1]
      have hfind1 : (db.pii_fields ++
          [(⟨db.next_field_id, gt.id, f, dn, dt, ev, rp, ne, true⟩ : PiiFieldRow)]).find?
            (fieldKeyMatch gt.id f) =
          some ⟨db.next_field_id, gt.id, f, dn, dt, ev, rp, ne, true⟩ := by
        rw [find?_append_of_none hfind, List.find?_cons]
        have : fieldKeyMatch gt.id f ⟨db.next_field_id, gt.id, f, dn, dt, ev, rp, ne, true⟩ = true := by
          simp [fieldKeyMatch]
        rw [this]
      rw [hfind1]
    · have hzero : db.pii_fields.countP (fieldKeyMatch gt.id f) = 0 := by
        rw [List.countP_eq_zero]
        intro a ha
        exact List.find?_eq_none.mp hfind a ha
      have hone : (db.pii_fields ++
          [(⟨db.next_field_id, gt.id, f, dn, dt, ev, rp, ne, true⟩ : PiiFieldRow)]).countP
            (fieldKeyMatch gt.id f) = 1 := by
        rw [List.countP_append, hzero]
        simp [List.countP_cons, fieldKeyMatch]
      rw [hone]
      exact le_max_left _ _
  · -- an active row already exists: both calls return it and change nothing
    refine ⟨db, row.id, ?_, ?_, le_max_right _ _⟩
    · rw [create_pii_field_spec db g f dn dt ev rp ne gt hgt, hfind]
    · rw [create_pii_field_spec db g f dn dt ev rp ne gt hgt, hfind]

theorem claim_C8_witness :
    create_pii_field (Db.mk [⟨1, str "sante", true⟩] [] 1) (str "sante")
        (str "cvv") (str "CVV") (str "regex") (str "") none none =
      .ok (Db.mk [⟨1, str "sante", true⟩]
        [⟨1, 1, str "cvv", str "CVV", str "regex", str "", none, none, true⟩] 2, 1) ∧
    create_pii_field (Db.mk [⟨1, str "sante", true⟩]
        [⟨1, 1, str "cvv", str "CVV", str "regex", str "", none, none, true⟩] 2) (str "sante")
        (str "cvv") (str "CVV") (str "regex") (str "") none none =
      .ok (Db.mk [⟨1, str "sante", true⟩]
        [⟨1, 1, str "cvv", str "CVV", str "regex", str "", none, none, true⟩] 2, 1) := by
  obtain ⟨db1, id1, h1, h2, _⟩ := claim_C8_create_pii_field_idempotent
    (Db.mk [⟨1, str "sante", true⟩] [] 1) (str "sante")
    (str "cvv") (str "CVV") (str "regex") (str "") none none
    ⟨1, str "sante", true⟩ (by decide)
  have hc : create_pii_field (Db.mk [⟨1, str "sante", true⟩] [] 1) (str "sante")
      (str "cvv") (str "CVV") (str "regex") (str "") none none =
    .ok (Db.mk [⟨1, str "sante", true⟩]
      [⟨1, 1, str "cvv", str "CVV", str "regex", str "", none, none, true⟩] 2, 1) := rfl
  rw [h1] at hc
  have hpair := Except.ok.inj hc
  have hdb : db1 = Db.mk [⟨1, str "sante", true⟩]
      [⟨1, 1, str "cvv", str "CVV", str "regex", str "", none, none, true⟩] 2 :=
    (Prod.ext_iff.mp hpair).1
  have hid : id1 = 1 := (Prod.ext_iff.mp hpair).2
  subst hdb
  subst hid
  exact ⟨h1, h2⟩

/-! ## Claim C7: the canonicaliser contract -/

/-- C7 counterexample: the claim states an unknown label is returned
*unchanged* with `is_known = false`; but `canonicalize_entity("foo")` returns
the normalised (uppercased) key `"FOO"`, not the original label `"foo"`. -/
theorem claim_C7_counterexample :
    canonicalize_entity (str "foo") = (str "FOO", false) ∧
    canonicalize_entity (str "foo") ≠ (str "foo", false) := by
  constructor
  · decide
  · decide

/-- C7 (amended): `canonicalize_entity` trims, uppercases and replaces `-`
with `_`, then looks the key up in the static synonym table; every canonical
label maps to itself with `is_known = true`; an *unknown* label is returned
in this normalised form (not verbatim) with `is_known = false`. -/
theorem claim_C7_amended :
    (∀ c ∈ canonicalEntities, canonicalize_entity c = (c, true)) ∧
    (∀ label : List Char, (canonicalize_entity label).2 = false →
      (canonicalize_entity label).1 = normalizeLabel label) := by
  constructor
  · decide
  · intro label h
    by_cases hnil : label = []
    · subst hnil
      decide
    · rcases hlk : entityLookup (normalizeLabel label) with _ | v
      · simp [canonicalize_entity, hnil, hlk]
      · rw [canonicalize_entity, if_neg hnil, hlk] at h
        simp at h

theorem claim_C7_witness :
    canonicalize_entity (str "PERSON") = (str "PERSON", true) :=
  claim_C7_amended.1 (str "PERSON") (by decide)

/-! ## Claim C6: adjacent same-class merge -/

/-- C6: two accepted entities of name-like types separated by a gap of 0 to 5
characters (and with a positive-length first span) are merged, whatever order
they arrive in, into a single entity spanning from the start of the first to
the end of the second, with the texts concatenated (space-joined), type
normalised to `name`, and confidence the maximum of the two. -/
theorem claim_C6_adjacent_name_merge (a b : DEntity)
    (hta : nameLike a.type = true) (htb : nameLike b.type = true)
    (hlen : a.start < a.end_)
    (hgap0 : 0 ≤ b.start - a.end_) (hgap5 : b.start - a.end_ ≤ 5) :
    merge_entities [a, b] = [fuseNames a b] ∧
    merge_entities [b, a] = [fuseNames a b] := by
  have hab : mergeKeyLe a b = true := by
    simp only [mergeKeyLe, Bool.or_eq_true, Bool.and_eq_true, decide_eq_true_eq]
    omega
  have hba : mergeKeyLe b a = false := by
    simp only [mergeKeyLe, Bool.or_eq_false_iff, Bool.and_eq_false_iff,
      decide_eq_false_iff_not]
    constructor
    · omega
    · left
      omega
  have hov : overlapStrict b a = false := by
    simp only [overlapStrict, Bool.and_eq_false_iff, decide_eq_false_iff_not]
    left
    omega
  have hcond : (nameLike b.type && nameLike a.type &&
      decide (0 ≤ b.start - a.end_) && decide (b.start - a.end_ ≤ 5)) = true := by
    rw [hta, htb]
    simp only [Bool.true_and, Bool.and_eq_true, decide_eq_true_eq]
    omega
  have hfold : mergeFold [a] b = [fuseNames a b] := by
    unfold mergeFold scanMerge
    rw [hov]
    simp only [Bool.false_eq_true, if_false]
    rw [if_pos hcond]
  have hsorted : ∀ l : List DEntity, l = [a, b] →
      dedupEnts [] (l.foldl mergeFold []) = [fuseNames a b] := by
    intro l hl
    subst hl
    show dedupEnts [] (mergeFold (mergeFold [] a) b) = _
    have h0 : mergeFold [] a = [a] := by
      unfold mergeFold scanMerge
      rfl
    rw [h0, hfold]
    unfold dedupEnts dedupEnts
    simp
  constructor
  · unfold merge_entities
    rw [if_neg (by simp)]
    exact hsorted _ (by simp [pySortBy, insertLe, hab])
  · unfold merge_entities
    rw [if_neg (by simp)]
    exact hsorted _ (by simp [pySortBy, insertLe, hba])

theorem claim_C6_witness :
    merge_entities
        [⟨str "Marie", str "name", 0, 5, str "ner_model", none⟩,
         ⟨str "Dubois", str "name", 6, 12, str "ner_model", none⟩] =
      [⟨str "Marie Dubois", str "name", 0, 12, str "merged_names", some 0⟩] := by
  have h := (claim_C6_adjacent_name_merge
    ⟨str "Marie", str "name", 0, 5, str "ner_model", none⟩
    ⟨str "Dubois", str "name", 6, 12, str "ner_model", none⟩
    (by decide) (by decide) (by decide) (by decide) (by decide)).1
  exact h.trans (by decide)

/-! ## Claim C4: regex-sourced candidates win every overlap -/

/-- C4: whenever two valid candidates overlap, one carrying
`source = 'regex_db'` (the configured-regex source tag) and the other any
other source (e.g. an NER model) with *any* confidence, the overlap
resolution of `generate_tokens` selects the regex-sourced candidate and drops
the other, in both input orders. -/
theorem claim_C4_regex_beats_ner (a b : PyEntity)
    (hva : validEnt a = true) (hvb : validEnt b = true)
    (hsa : a.source = some (str "regex_db"))
    (hsb : b.source ≠ some (str "regex_db"))
    (hov1 : b.start.getD 0 < a.end_.getD 0)
    (hov2 : a.start.getD 0 < b.end_.getD 0) :
    selectedOf [a, b] = [a] ∧ selectedOf [b, a] = [a] := by
  have hle : scoreLe a b = true := by
    simp [scoreLe, entScore, hsa, hsb]
  have hlt : scoreLe b a = false := by
    simp [scoreLe, entScore, hsa, hsb]
  have hocc : overlapsOcc b [(a.start.getD 0, a.end_.getD 0)] = true := by
    simp only [overlapsOcc, List.any_cons, List.any_nil, Bool.or_false,
      Bool.not_eq_true', Bool.or_eq_false_iff, decide_eq_false_iff_not]
    omega
  have hsel : selectLoop [a, b] [] [] = [a] := by
    unfold selectLoop
    rw [if_neg (by simp [overlapsOcc])]
    unfold selectLoop
    rw [if_pos (by simpa using hocc)]
    rfl
  constructor
  · unfold selectedOf
    rw [show [a, b].filter validEnt = [a, b] by simp [hva, hvb]]
    rw [show pySortBy scoreLe [a, b] = [a, b] by simp [pySortBy, insertLe, hle]]
    rw [hsel]
    simp [pySortBy, insertLe]
  · unfold selectedOf
    rw [show [b, a].filter validEnt = [b, a] by simp [hva, hvb]]
    rw [show pySortBy scoreLe [b, a] = [a, b] by simp [pySortBy, insertLe, hlt]]
    rw [hsel]
    simp [pySortBy, insertLe]

theorem claim_C4_witness :
    selectedOf
        [{ start := some 0, end_ := some 4, text := some (str "1234"),
           type := some (str "cvv"), source := some (str "regex_db"),
           confidence := some (1/2) },
         { start := some 2, end_ := some 6, text := some (str "3456"),
           type := some (str "num"), source := some (str "ner_model"),
           confidence := some (99/100) }] =
      [{ start := some 0, end_ := some 4, text := some (str "1234"),
         type := some (str "cvv"), source := some (str "regex_db"),
         confidence := some (1/2) }] :=
  (claim_C4_regex_beats_ner _ _ (by decide) (by decide) (by decide) (by decide)
    (by decide) (by decide)).1

/-! ## Sorting lemmas for the stable insertion sort -/

theorem insertLe_perm (le : α → α → Bool) (x : α) (l : List α) :
    List.Perm (insertLe le x l) (x :: l) := by
  induction l with
  | nil => exact List.Perm.refl _
  | cons y ys ih =>
    unfold insertLe
    by_cases h : le y x = true
    · rw [if_pos h]
      exact (ih.cons y).trans (List.Perm.swap x y ys)
    · rw [if_neg h]

theorem pySortBy_perm (le : α → α → Bool) (l : List α) :
    List.Perm (pySortBy le l) l := by
  suffices h : ∀ (l acc : List α),
      List.Perm (l.foldl (fun acc x => insertLe le x acc) acc) (acc ++ l) by
    simpa using h l []
  intro l
  induction l with
  | nil => intro acc; simp
  | cons x xs ih =>
    intro acc
    have h1 : (x :: xs).foldl (fun acc x => insertLe le x acc) acc
        = xs.foldl (fun acc x => insertLe le x acc) (insertLe le x acc) := rfl
    rw [h1]
    exact ((ih _).trans ((insertLe_perm le x acc).append_right xs)).trans
      List.perm_middle.symm

theorem mem_pySortBy {le : α → α → Bool} {l : List α} {x : α}
    (h : x ∈ pySortBy le l) : x ∈ l :=
  (pySortBy_perm le l).subset h

theorem insertLe_pairwise {le : α → α → Bool}
    (htot : ∀ a b, le a b = true ∨ le b a = true)
    (htrans : ∀ a b c, le a b = true → le b c = true → le a c = true)
    {l : List α} (x : α) (h : l.Pairwise (fun a b => le a b = true)) :
    (insertLe le x l).Pairwise (fun a b => le a b = true) := by
  induction l with
  | nil => simp [insertLe]
  | cons y ys ih =>
    rw [List.pairwise_cons] at h
    obtain ⟨hy, hys⟩ := h
    unfold insertLe
    by_cases hyx : le y x = true
    · rw [if_pos hyx, List.pairwise_cons]
      refine ⟨?_, ih hys⟩
      intro z hz
      rcases List.mem_cons.mp ((insertLe_perm le x ys).mem_iff.mp hz) with hzx | hzys
      · exact hzx ▸ hyx
      · exact hy z hzys
    · rw [if_neg hyx, List.pairwise_cons]
      have hxy : le x y = true := (htot x y).resolve_right (by simpa using hyx)
      refine ⟨?_, List.pairwise_cons.mpr ⟨hy, hys⟩⟩
      intro z hz
      rcases List.mem_cons.mp hz with hzy | hzys
      · exact hzy ▸ hxy
      · exact htrans x y z hxy (hy z hzys)

theorem pySortBy_pairwise {le : α → α → Bool}
    (htot : ∀ a b, le a b = true ∨ le b a = true)
    (htrans : ∀ a b c, le a b = true → le b c = true → le a c = true)
    (l : List α) : (pySortBy le l).Pairwise (fun a b => le a b = true) := by
  suffices h : ∀ (l acc : List α),
      acc.Pairwise (fun a b => le a b = true) →
      (l.foldl (fun acc x => insertLe le x acc) acc).Pairwise
        (fun a b => le a b = true) by
    exact h l [] List.Pairwise.nil
  intro l
  induction l with
  | nil => intro acc hacc; exact hacc
  | cons x xs ih =>
    intro acc hacc
    exact ih _ (insertLe_pairwise htot htrans x hacc)

/-! ## Claim C3: the substituted entity list is disjoint, positive, sorted -/

theorem disjEnt_symm {a b : PyEntity} (h : DisjEnt a b) : DisjEnt b a :=
  h.symm

theorem selectLoop_mem {rest : List PyEntity} :
    ∀ {sel : List PyEntity} {occ : List (Int × Int)} {x : PyEntity},
      x ∈ selectLoop rest sel occ → x ∈ sel ∨ x ∈ rest := by
  induction rest with
  | nil => intro sel occ x hx; exact Or.inl hx
  | cons ent rest ih =>
    intro sel occ x hx
    unfold selectLoop at hx
    by_cases hov : overlapsOcc ent occ = true
    · rw [if_pos hov] at hx
      rcases ih hx with h | h
      · exact Or.inl h
      · exact Or.inr (List.mem_cons_of_mem _ h)
    · rw [if_neg hov] at hx
      rcases ih hx with h | h
      · rcases List.mem_append.mp h with h' | h'
        · exact Or.inl h'
        · exact Or.inr (List.mem_cons.mpr (Or.inl (List.mem_singleton.mp h')))
      · exact Or.inr (List.mem_cons_of_mem _ h)

theorem not_overlapsOcc_disj {ent a : PyEntity} {occ : List (Int × Int)}
    (hocc : overlapsOcc ent occ = false) (ha : spanOf a ∈ occ) :
    DisjEnt a ent := by
  unfold overlapsOcc at hocc
  rw [List.any_eq_false] at hocc
  have h2 := hocc _ ha
  rw [spanOf] at h2
  simp at h2
  unfold DisjEnt
  omega

theorem selectLoop_pairwise (rest : List PyEntity) :
    ∀ sel : List PyEntity, sel.Pairwise DisjEnt →
      (selectLoop rest sel (sel.map spanOf)).Pairwise DisjEnt := by
  induction rest with
  | nil => intro sel hsel; exact hsel
  | cons ent rest ih =>
    intro sel hsel
    unfold selectLoop
    by_cases hov : overlapsOcc ent (sel.map spanOf) = true
    · rw [if_pos hov]
      exact ih sel hsel
    · rw [if_neg hov]
      have hpair : (sel ++ [ent]).Pairwise DisjEnt := by
        rw [List.pairwise_append]
        refine ⟨hsel, List.pairwise_singleton _ _, ?_⟩
        intro a ha y hy
        rw [List.mem_singleton] at hy
        subst hy
        exact not_overlapsOcc_disj (by simpa using hov)
          (List.mem_map_of_mem spanOf ha)
      have hocc2 : sel.map spanOf ++ [(ent.start.getD 0, ent.end_.getD 0)] =
          (sel ++ [ent]).map spanOf := by
        simp [spanOf]
      rw [hocc2]
      exact ih (sel ++ [ent]) hpair

theorem startLe_total : ∀ a b : PyEntity, startLe a b = true ∨ startLe b a = true := by
  intro a b
  simp only [startLe, decide_eq_true_eq]
  omega

theorem startLe_trans : ∀ a b c : PyEntity,
    startLe a b = true → startLe b c = true → startLe a c = true := by
  intro a b c
  simp only [startLe, decide_eq_true_eq]
  omega

/-- Every selected entity passed the validity filter. -/
theorem selectedOf_valid (entities : List PyEntity) :
    ∀ e ∈ selectedOf entities, validEnt e = true := by
  intro e he
  have h1 := mem_pySortBy he
  rcases selectLoop_mem h1 with h2 | h2
  · exact absurd h2 (List.not_mem_nil e)
  · exact List.of_mem_filter (mem_pySortBy h2)

/-- Every selected entity comes from the input list. -/
theorem selectedOf_mem (entities : List PyEntity) :
    ∀ e ∈ selectedOf entities, e ∈ entities := by
  intro e he
  have h1 := mem_pySortBy he
  rcases selectLoop_mem h1 with h2 | h2
  · exact absurd h2 (List.not_mem_nil e)
  · exact List.mem_of_mem_filter (mem_pySortBy h2)

/-- The selected entities are pairwise disjoint and sorted: each ends no
later than the next one starts. -/
theorem selectedOf_pairwise (entities : List PyEntity) :
    (selectedOf entities).Pairwise
      (fun a b => a.end_.getD 0 ≤ b.start.getD 0) := by
  have hvalid := selectedOf_valid entities
  have hdisj : (selectLoop (pySortBy scoreLe (entities.filter validEnt)) [] []).Pairwise
      DisjEnt := by
    have := selectLoop_pairwise (pySortBy scoreLe (entities.filter validEnt))
      [] List.Pairwise.nil
    simpa using this
  have hdisj' : (selectedOf entities).Pairwise DisjEnt := by
    unfold selectedOf
    exact ((pySortBy_perm startLe _).pairwise_iff (fun h => disjEnt_symm h)).mpr hdisj
  have hsorted : (selectedOf entities).Pairwise (fun a b => startLe a b = true) := by
    unfold selectedOf
    exact pySortBy_pairwise startLe_total startLe_trans _
  have hcomb := hsorted.and hdisj'
  refine List.Pairwise.imp_of_mem ?_ hcomb
  intro a b ha hb hab
  obtain ⟨hle, hd⟩ := hab
  have hva := hvalid a ha
  have hvb := hvalid b hb
  simp only [startLe, decide_eq_true_eq] at hle
  simp only [validEnt, Bool.and_eq_true, decide_eq_true_eq] at hva hvb
  rcases hd with h | h
  · exact h
  · omega

/-- C3: for every input entity list, the entity list actually substituted by
`generate_tokens` (filter, score sort, greedy overlap removal, start sort)
consists of valid entities — all four keys present and `start < end`, i.e.
positive-length half-open intervals — and is pairwise non-overlapping and
sorted ascending by `start`: each entity ends no later than the next one
starts. -/
theorem claim_C3_selected_disjoint_sorted (entities : List PyEntity) :
    (∀ e ∈ selectedOf entities, validEnt e = true) ∧
    (selectedOf entities).Pairwise
      (fun a b => a.end_.getD 0 ≤ b.start.getD 0) :=
  ⟨selectedOf_valid entities, selectedOf_pairwise entities⟩

/-! ## Claim C5: the CVV guard -/

/-- C5: with a `cvv` field configured with the bare generic pattern
`\d{3,4}`, the input `"mon code est 1999"` yields no cvv candidate, while
`"mon cvv est 381"` yields exactly one cvv candidate covering `"381"`
(positions 12-15); and in general every cvv candidate emitted by the regex
detection loop comes from a `finditer` span that is not adjacent to another
digit and either has a lexical trigger in the 40-character lookback window or
belongs to a field whose pattern is not the bare generic digit pattern. -/
theorem claim_C5_cvv_guard :
    detectFieldRegex (str "mon code est 1999") ⟨str "cvv", bareDigitPattern⟩
        (findRuns (str "mon code est 1999") 0) = [] ∧
    detectFieldRegex (str "mon cvv est 381") ⟨str "cvv", bareDigitPattern⟩
        (findRuns (str "mon cvv est 381") 0) =
      [{ text := str "381", type := str "cvv", start := 12, end_ := 15,
         source := str "regex_db", confidence := some conf09 }] ∧
    (∀ (text : List Char) (field : PiiField) (ms : List (Nat × Nat))
        (ent : DEntity), field.field_name = str "cvv" →
      ent ∈ detectFieldRegex text field ms →
      ∃ se ∈ ms, ent.start = (se.1 : Int) ∧ ent.end_ = (se.2 : Int) ∧
        touchesDigit text se.1 se.2 = false ∧
        (hasTrigger (cvvContext text se.1) = true ∨
          field.pattern ≠ bareDigitPattern)) := by
  refine ⟨by decide, by decide, ?_⟩
  intro text field ms ent hf hent
  unfold detectFieldRegex at hent
  rw [List.mem_filterMap] at hent
  obtain ⟨se, hse, hsome⟩ := hent
  rw [hf, if_pos rfl] at hsome
  refine ⟨se, hse, ?_⟩
  by_cases htouch : touchesDigit text se.1 se.2 = true
  · rw [if_pos htouch] at hsome
    simp at hsome
  · rw [if_neg htouch] at hsome
    by_cases hyear : isYear (pySlice text (se.1 : Int) (se.2 : Int)) = true
    · rw [if_pos hyear] at hsome
      simp at hsome
    · rw [if_neg hyear] at hsome
      by_cases hbare : (!hasTrigger (cvvContext text se.1) &&
          field.pattern = bareDigitPattern) = true
      · rw [if_pos hbare] at hsome
        simp at hsome
      · rw [if_neg hbare] at hsome
        rw [if_pos rfl] at hsome
        have hent' := Option.some.inj hsome
        subst hent'
        refine ⟨rfl, rfl, by simpa using htouch, ?_⟩
        simp only [Bool.and_eq_true, Bool.not_eq_true', decide_eq_true_eq] at hbare
        rcases Decidable.not_and_iff_or_not.mp hbare with h | h
        · left
          simpa using h
        · right
          simpa using h

theorem claim_C5_witness :
    ∃ se ∈ findRuns (str "mon cvv est 381") 0,
      ({ text := str "381", type := str "cvv", start := 12, end_ := 15,
         source := str "regex_db", confidence := some conf09 } : DEntity).start =
        (se.1 : Int) ∧
      ({ text := str "381", type := str "cvv", start := 12, end_ := 15,
         source := str "regex_db", confidence := some conf09 } : DEntity).end_ =
        (se.2 : Int) ∧
      touchesDigit (str "mon cvv est 381") se.1 se.2 = false ∧
      (hasTrigger (cvvContext (str "mon cvv est 381") se.1) = true ∨
        (⟨str "cvv", bareDigitPattern⟩ : PiiField).pattern ≠ bareDigitPattern) :=
  claim_C5_cvv_guard.2.2 (str "mon cvv est 381") ⟨str "cvv", bareDigitPattern⟩
    (findRuns (str "mon cvv est 381") 0) _ rfl
    (by rw [claim_C5_cvv_guard.2.1]; exact List.mem_singleton.mpr rfl)

/-! ## Replacement lemmas for `pyReplace` -/

theorem pyGo_skip (pat rep : List Char) (s : List Char) (n : Nat) :
    pyGo pat rep s n = pyGo pat rep (s.drop n) 0 := by
  induction s generalizing n with
  | nil => cases n <;> rfl
  | cons c cs ih =>
    cases n with
    | zero => rfl
    | succ m =>
      show pyGo pat rep cs m = _
      rw [ih m]
      rfl

theorem pyGo_match {pat : List Char} (rep : List Char) {s : List Char}
    (hpat : pat ≠ []) (hs : s ≠ []) (hpre : pat.isPrefixOf s = true) :
    pyGo pat rep s 0 = rep ++ pyGo pat rep (s.drop pat.length) 0 := by
  match s with
  | c :: cs =>
    rw [show pyGo pat rep (c :: cs) 0 =
        if pat.isPrefixOf (c :: cs) then rep ++ pyGo pat rep cs (pat.length - 1)
        else c :: pyGo pat rep cs 0 from rfl]
    rw [if_pos hpre, pyGo_skip]
    match pat, hpat with
    | p :: ps, _ =>
      show rep ++ pyGo _ rep (cs.drop ((p :: ps).length - 1)) 0 =
        rep ++ pyGo _ rep ((c :: cs).drop (p :: ps).length) 0
      rw [show (p :: ps).length - 1 = ps.length from rfl,
        show (c :: cs).drop (p :: ps).length = cs.drop ps.length from rfl]

theorem pyGo_nomatch {pat : List Char} (rep : List Char) {c : Char}
    {cs : List Char} (hpre : ¬ pat.isPrefixOf (c :: cs) = true) :
    pyGo pat rep (c :: cs) 0 = c :: pyGo pat rep cs 0 := by
  rw [show pyGo pat rep (c :: cs) 0 =
      if pat.isPrefixOf (c :: cs) then rep ++ pyGo pat rep cs (pat.length - 1)
      else c :: pyGo pat rep cs 0 from rfl]
  rw [if_neg hpre]

/-- Scanning skips over a segment in which no occurrence of the pattern
starts (straddling occurrences included). -/
theorem pyGo_append_no_occ (pat rep : List Char) (s rest : List Char)
    (h : ∀ i < s.length, ¬ pat.isPrefixOf ((s ++ rest).drop i) = true) :
    pyGo pat rep (s ++ rest) 0 = s ++ pyGo pat rep rest 0 := by
  induction s with
  | nil => rfl
  | cons c cs ih =>
    have h0 : ¬ pat.isPrefixOf (c :: (cs ++ rest)) = true := by
      have := h 0 (by simp)
      simpa using this
    show pyGo pat rep (c :: (cs ++ rest)) 0 = _
    rw [pyGo_nomatch rep h0]
    rw [ih]
    · rfl
    · intro i hi
      have := h (i + 1) (by simpa using Nat.succ_lt_succ hi)
      simpa using this

/-- `str.replace` when the pattern occurs exactly once, as the final suffix. -/
theorem pyReplace_single_suffix (pat core rep : List Char)
    (hpat : pat ≠ [])
    (h : ∀ i < core.length, ¬ pat.isPrefixOf ((core ++ pat).drop i) = true) :
    pyReplace (core ++ pat) pat rep = core ++ rep := by
  match pat, hpat with
  | p :: ps, _ =>
    show pyGo (p :: ps) rep (core ++ (p :: ps)) 0 = core ++ rep
    rw [pyGo_append_no_occ (p :: ps) rep core (p :: ps) h]
    rw [pyGo_match rep (by simp) (by simp)
      (List.isPrefixOf_iff_prefix.mpr (List.prefix_refl _))]
    rw [List.drop_length]
    rw [show pyGo (p :: ps) rep [] 0 = [] from rfl]
    simp

/-- In `core ++ " >"` with no `'>'` in `core`, no occurrence of `" >"` starts
inside `core`. -/
theorem no_occ_space_gt {core : List Char} (hgt : '>' ∉ core) :
    ∀ i < core.length,
      ¬ ([' ', '>'] : List Char).isPrefixOf ((core ++ [' ', '>']).drop i) = true := by
  induction core with
  | nil => intro i hi; exact absurd hi (by simp)
  | cons c cs ih =>
    intro i hi
    cases i with
    | zero =>
      intro hpre
      rw [List.isPrefixOf_iff_prefix] at hpre
      obtain ⟨t, ht⟩ := hpre
      cases cs with
      | nil => simp at ht
      | cons c2 cs' =>
        have : c2 = '>' := by
          have := congrArg (fun l => l.get? 1) ht
          simpa using this.symm
        exact hgt (by simp [this])
    | succ j =>
      have hj : j < cs.length := by simpa using hi
      have := ih (fun hmem => hgt (List.mem_cons_of_mem c hmem)) j hj
      simpa using this

/-! ## The shape of emitted tokens -/

theorem hexDigit_mem (n : Nat) : hexDigit n ∈ str "0123456789abcdef" := by
  by_cases h10 : n < 10
  · exact (by decide : ∀ m < 10, hexDigit m ∈ str "0123456789abcdef") n h10
  · by_cases h16 : n < 16
    · exact (by decide : ∀ m < 16, 10 ≤ m → hexDigit m ∈ str "0123456789abcdef")
        n h16 (by omega)
    · unfold hexDigit
      rw [if_neg h10, if_neg h16]
      decide

theorem mem_wordHex {c : Char} {x : Nat} (h : c ∈ wordHex x) :
    c ∈ str "0123456789abcdef" := by
  unfold wordHex at h
  simp only [List.mem_cons, List.not_mem_nil, or_false] at h
  rcases h with h | h | h | h | h | h | h | h <;> exact h ▸ hexDigit_mem _

theorem mem_sha256hex16 {c : Char} {msg : List Nat} (h : c ∈ sha256hex16 msg) :
    c ∈ str "0123456789abcdef" := by
  unfold sha256hex16 at h
  rcases List.mem_append.mp h with h | h
  · exact mem_wordHex h
  · exact mem_wordHex h

theorem gt_not_mem_sha256hex16 {msg : List Nat} : '>' ∉ sha256hex16 msg :=
  fun h => absurd (mem_sha256hex16 h) (by decide)

/-- The emitted token (line 116) in closed form, provided the field name
contains no `'>'` character. -/
theorem mkToken_shape (key ty seg : List Char) (hty : '>' ∉ ty) :
    mkToken key ty seg =
      str "<" ++ ty ++ str ":TOKEN_" ++
        sha256hex16 (utf8 (key ++ str "_" ++ seg)) ++ str ">" := by
  unfold mkToken generate_token
  have harg : str "<" ++ ty ++ str ":" ++
      (str "TOKEN_" ++ sha256hex16 (utf8 (key ++ str "_" ++ seg))) ++ str " >" =
      (str "<" ++ ty ++ str ":TOKEN_" ++
        sha256hex16 (utf8 (key ++ str "_" ++ seg))) ++ [' ', '>'] := by
    simp only [str, List.append_assoc]
    rfl
  rw [harg]
  have hgt : '>' ∉ str "<" ++ ty ++ str ":TOKEN_" ++
      sha256hex16 (utf8 (key ++ str "_" ++ seg)) := by
    intro hmem
    rcases List.mem_append.mp hmem with h | h
    · rcases List.mem_append.mp h with h | h
      · rcases List.mem_append.mp h with h | h
        · exact absurd h (by decide)
        · exact hty h
      · exact absurd h (by decide)
    · exact gt_not_mem_sha256hex16 h
  have hrepl := pyReplace_single_suffix [' ', '>']
    (str "<" ++ ty ++ str ":TOKEN_" ++ sha256hex16 (utf8 (key ++ str "_" ++ seg)))
    (str ">") (by simp) (no_occ_space_gt hgt)
  rw [show pyReplace ((str "<" ++ ty ++ str ":TOKEN_" ++
      sha256hex16 (utf8 (key ++ str "_" ++ seg))) ++ [' ', '>']) (str " >") (str ">") =
    (str "<" ++ ty ++ str ":TOKEN_" ++ sha256hex16 (utf8 (key ++ str "_" ++ seg))) ++
      str ">" from hrepl]

/-! ## Token-map entries come from selected entities -/

theorem mem_dictInsert {d : TokenDict} {k v k' v' : List Char}
    (h : (k, v) ∈ dictInsert d k' v') : (k, v) ∈ d ∨ (k = k' ∧ v = v') := by
  unfold dictInsert at h
  by_cases hany : d.any (fun e => e.1 = k') = true
  · rw [if_pos hany] at h
    rw [List.mem_map] at h
    obtain ⟨pre, hpre, heq⟩ := h
    by_cases hpk : pre.1 = k'
    · rw [if_pos (by simpa using hpk)] at heq
      right
      exact ⟨(Prod.mk.injEq _ _ _ _ ▸ heq.symm).1, (Prod.mk.injEq _ _ _ _ ▸ heq.symm).2⟩
    · rw [if_neg (by simpa using hpk)] at heq
      left
      exact heq ▸ hpre
  · rw [if_neg hany] at h
    rcases List.mem_append.mp h with h | h
    · exact Or.inl h
    · right
      have := List.mem_singleton.mp h
      exact ⟨(Prod.mk.injEq _ _ _ _ ▸ this).1, (Prod.mk.injEq _ _ _ _ ▸ this).2⟩

theorem emitLoop_toks_mem (key text : List Char) :
    ∀ (es : List PyEntity) (cursor : Int) (parts : List (List Char))
      (toks : TokenDict) (tok orig : List Char),
      (tok, orig) ∈ (emitLoop key text es cursor parts toks).2 →
      (tok, orig) ∈ toks ∨
        ∃ e ∈ es, orig = pySlice text (e.start.getD 0) (e.end_.getD 0) ∧
          tok = mkToken key (e.type.getD []) orig := by
  intro es
  induction es with
  | nil =>
    intro cursor parts toks tok orig h
    exact Or.inl h
  | cons e rest ih =>
    intro cursor parts toks tok orig h
    rw [show emitLoop key text (e :: rest) cursor parts toks =
      emitLoop key text rest (e.end_.getD 0)
        ((if e.start.getD 0 > cursor then
            parts ++ [pySlice text cursor (e.start.getD 0)] else parts) ++
          [mkToken key (e.type.getD [])
            (pySlice text (e.start.getD 0) (e.end_.getD 0))])
        (dictInsert toks
          (mkToken key (e.type.getD [])
            (pySlice text (e.start.getD 0) (e.end_.getD 0)))
          (pySlice text (e.start.getD 0) (e.end_.getD 0))) from rfl] at h
    rcases ih _ _ _ _ _ h with h1 | h1
    · rcases mem_dictInsert h1 with h2 | h2
      · exact Or.inl h2
      · refine Or.inr ⟨e, List.mem_cons_self e rest, ?_, ?_⟩
        · exact h2.2
        · rw [h2.1, h2.2]
    · obtain ⟨e', he', h2⟩ := h1
      exact Or.inr ⟨e', List.mem_cons_of_mem e he', h2⟩

/-! ## Claim C2: determinism and the exact token shape -/

/-- C2 counterexample: for a field named `"a >"` (the API accepts any
1-to-50-character field name), the emitted token is *not*
`<field_name:TOKEN_h>`: the `.replace(' >', '>')` of line 116 also rewrites
the `" >"` inside the field name, yielding `<a>:TOKEN_h>` instead of
`<a >:TOKEN_h>`. -/
theorem claim_C2_counterexample :
    (generate_tokens guardKey (str "xy")
        [{ start := some 0, end_ := some 2, text := some (str "xy"),
           type := some (str "a >") }]).2 =
      [(str "<a>:TOKEN_" ++ sha256hex16 (utf8 (guardKey ++ str "_" ++ str "xy")) ++
          str ">", str "xy")] ∧
    (generate_tokens guardKey (str "xy")
        [{ start := some 0, end_ := some 2, text := some (str "xy"),
           type := some (str "a >") }]).2 ≠
      [(str "<" ++ str "a >" ++ str ":TOKEN_" ++
          sha256hex16 (utf8 (guardKey ++ str "_" ++ str "xy")) ++ str ">",
        str "xy")] := by
  constructor
  · decide
  · decide

/-- C2 (amended): masking is deterministic — the embedding of
`generate_tokens` is a pure function of `(key, text, entities)`, there being
no other state (the SHA-256 digest is a function of its input) — and every
entry `(tok, orig)` of the emitted token map belongs to a selected entity
whose span sliced from the text is `orig`, with
`tok = <field_name:TOKEN_h>` where `h` is the first 16 hex characters of
`sha256(key + "_" + orig)`, *provided* the field name contains no `'>'`
character (otherwise the `.replace(' >', '>')` can corrupt the shape, as the
counterexample shows). -/
theorem claim_C2_amended :
    (∀ (key text : List Char) (entities : List PyEntity),
      generate_tokens key text entities = generate_tokens key text entities) ∧
    (∀ (key text : List Char) (entities : List PyEntity) (tok orig : List Char),
      (tok, orig) ∈ (generate_tokens key text entities).2 →
      ∃ e ∈ selectedOf entities,
        orig = pySlice text (e.start.getD 0) (e.end_.getD 0) ∧
        tok = mkToken key (e.type.getD []) orig ∧
        ('>' ∉ e.type.getD [] →
          tok = str "<" ++ e.type.getD [] ++ str ":TOKEN_" ++
            sha256hex16 (utf8 (key ++ str "_" ++ orig)) ++ str ">")) := by
  refine ⟨fun _ _ _ => rfl, ?_⟩
  intro key text entities tok orig hmem
  unfold generate_tokens at hmem
  by_cases hclean : entities.filter validEnt = []
  · rw [if_pos hclean] at hmem
    exact absurd hmem (List.not_mem_nil _)
  · rw [if_neg hclean] at hmem
    rcases emitLoop_toks_mem key text (selectedOf entities) 0 [] [] tok orig hmem
      with h | h
    · exact absurd h (List.not_mem_nil _)
    · obtain ⟨e, he, horig, htok⟩ := h
      refine ⟨e, he, horig, htok, ?_⟩
      intro hgt
      rw [htok]
      exact mkToken_shape key (e.type.getD []) orig hgt

theorem claim_C2_witness :
    ∃ e ∈ selectedOf
        [{ start := some 0, end_ := some 2, text := some (str "ab"),
           type := some (str "t") }],
      str "ab" = pySlice (str "ab") (e.start.getD 0) (e.end_.getD 0) ∧
      str "<t:TOKEN_0579f2f40ab7b2df>" = mkToken guardKey (e.type.getD []) (str "ab") ∧
      ('>' ∉ e.type.getD [] →
        str "<t:TOKEN_0579f2f40ab7b2df>" = str "<" ++ e.type.getD [] ++
          str ":TOKEN_" ++ sha256hex16 (utf8 (guardKey ++ str "_" ++ str "ab")) ++
          str ">") :=
  claim_C2_amended.2 guardKey (str "ab")
    [{ start := some 0, end_ := some 2, text := some (str "ab"),
       type := some (str "t") }]
    (str "<t:TOKEN_0579f2f40ab7b2df>") (str "ab") (by decide)

/-! ## Round-trip machinery: occurrences of tokens in piece lists -/

theorem flattenP_append (P1 P2 : List Piece) :
    flattenP (P1 ++ P2) = flattenP P1 ++ flattenP P2 := by
  induction P1 with
  | nil => rfl
  | cons p P ih => cases p <;> simp [flattenP, ih]

theorem core_prefix_eq : ∀ (c1 c2 rest : List Char), '>' ∉ c1 → '>' ∉ c2 →
    (c1 ++ ['>']) <+: (c2 ++ ['>'] ++ rest) → c1 = c2 := by
  intro c1
  induction c1 with
  | nil =>
    intro c2 rest _ h2 hp
    cases c2 with
    | nil => rfl
    | cons b c2' =>
      exfalso
      obtain ⟨t, ht⟩ := hp
      rw [List.nil_append, List.cons_append, List.cons_append,
        List.cons_append] at ht
      have hb : '>' = b := (List.cons.injEq _ _ _ _ ▸ ht).1
      exact h2 (hb ▸ List.mem_cons_self b c2')
  | cons a c1' ih =>
    intro c2 rest h1 h2 hp
    cases c2 with
    | nil =>
      exfalso
      obtain ⟨t, ht⟩ := hp
      rw [List.cons_append, List.cons_append, List.nil_append] at ht
      have ha : a = '>' := (List.cons.injEq _ _ _ _ ▸ ht).1
      exact h1 (ha ▸ List.mem_cons_self a c1')
    | cons b c2' =>
      obtain ⟨t, ht⟩ := hp
      rw [List.cons_append, List.cons_append, List.cons_append,
        List.cons_append] at ht
      have hab : a = b := (List.cons.injEq _ _ _ _ ▸ ht).1
      have htail : (c1' ++ ['>']) ++ t = c2' ++ ['>'] ++ rest :=
        (List.cons.injEq _ _ _ _ ▸ ht).2
      have h1' : '>' ∉ c1' := fun hm => h1 (List.mem_cons_of_mem a hm)
      have h2' : '>' ∉ c2' := fun hm => h2 (List.mem_cons_of_mem b hm)
      rw [hab, ih c2' rest h1' h2' ⟨t, htail⟩]

theorem tokShape_prefix_eq {t1 t2 rest : List Char} (h1 : TokShape t1)
    (h2 : TokShape t2) (hp : t1 <+: t2 ++ rest) : t1 = t2 := by
  obtain ⟨c1, rfl, _, h1g⟩ := h1
  obtain ⟨c2, rfl, _, h2g⟩ := h2
  obtain ⟨t, ht⟩ := hp
  rw [List.cons_append, List.cons_append, List.cons_append] at ht
  have htail : (c1 ++ ['>']) ++ t = c2 ++ ['>'] ++ rest :=
    (List.cons.injEq _ _ _ _ ▸ ht).2
  rw [core_prefix_eq c1 c2 rest h1g h2g ⟨t, htail⟩]

/-- No occurrence of a `<`-initial pattern starts inside a `<`-free
segment. -/
theorem no_occ_no_lt {tok c0s : List Char} (htok : tok = '<' :: c0s)
    {s : List Char} (h : '<' ∉ s) (rest : List Char) :
    ∀ i < s.length, ¬ tok.isPrefixOf ((s ++ rest).drop i) = true := by
  induction s with
  | nil => intro i hi; simp at hi
  | cons c cs ih =>
    intro i hi
    cases i with
    | zero =>
      intro hpre
      rw [List.isPrefixOf_iff_prefix] at hpre
      obtain ⟨t, ht⟩ := hpre
      rw [htok, List.drop_zero, List.cons_append, List.cons_append] at ht
      have hc : '<' = c := (List.cons.injEq _ _ _ _ ▸ ht).1
      exact h (hc ▸ List.mem_cons_self c cs)
    | succ j =>
      have h' : '<' ∉ cs := fun hm => h (List.mem_cons_of_mem c hm)
      have := ih h' j (by simpa using hi)
      simpa using this

/-- No occurrence of a well-shaped token starts inside a *different*
well-shaped token. -/
theorem no_occ_in_tok {tok t' : List Char} (hs1 : TokShape tok) (hs2 : TokShape t')
    (hne : tok ≠ t') (rest : List Char) :
    ∀ i < t'.length, ¬ tok.isPrefixOf ((t' ++ rest).drop i) = true := by
  obtain ⟨c2, ht', h2l, h2g⟩ := hs2
  subst ht'
  intro i hi
  cases i with
  | zero =>
    intro hpre
    rw [List.isPrefixOf_iff_prefix, List.drop_zero] at hpre
    exact hne (tokShape_prefix_eq hs1 ⟨c2, rfl, h2l, h2g⟩ hpre)
  | succ j =>
    obtain ⟨c1, htok, _, _⟩ := hs1
    have hbody : '<' ∉ c2 ++ ['>'] := by
      intro hm
      rcases List.mem_append.mp hm with hm | hm
      · exact h2l hm
      · simp at hm
    have hj : j < (c2 ++ ['>']).length := by
      simpa using hi
    have := no_occ_no_lt htok hbody rest j hj
    simpa using this

/-- Replacing one well-shaped token in the flattening of a well-formed piece
list replaces exactly the pieces carrying that token. -/
theorem replace_flatten {tok rep : List Char} (hs : TokShape tok)
    (P : List Piece) (hP : ∀ p ∈ P, PieceOK p) :
    pyReplace (flattenP P) tok rep = flattenP (P.map (replTok tok rep)) := by
  obtain ⟨c0, htok, hl, hg⟩ := hs
  induction P with
  | nil =>
    subst htok
    rfl
  | cons p P' ih =>
    have hpOK := hP p (List.mem_cons_self p P')
    have hP' : ∀ q ∈ P', PieceOK q := fun q hq => hP q (List.mem_cons_of_mem p hq)
    cases p with
    | plain s =>
      have hsOK : '<' ∉ s := hpOK
      show pyReplace (s ++ flattenP P') tok rep = flattenP (.plain s :: P'.map (replTok tok rep))
      have hbr : pyReplace (s ++ flattenP P') tok rep =
          pyGo tok rep (s ++ flattenP P') 0 := by
        subst htok
        rfl
      rw [hbr, pyGo_append_no_occ tok rep s (flattenP P')
        (no_occ_no_lt htok hsOK (flattenP P'))]
      have hbr' : pyGo tok rep (flattenP P') 0 = pyReplace (flattenP P') tok rep := by
        subst htok
        rfl
      rw [hbr', ih hP']
      rfl
    | tok t o =>
      have htOK : TokShape t ∧ '<' ∉ o := hpOK
      by_cases hteq : t = tok
      · subst hteq
        show pyReplace (t ++ flattenP P') t rep = _
        have hbr : pyReplace (t ++ flattenP P') t rep =
            pyGo t rep (t ++ flattenP P') 0 := by
          subst htok
          rfl
        rw [hbr, pyGo_match rep (by subst htok; simp) (by subst htok; simp)
          (List.isPrefixOf_iff_prefix.mpr (List.prefix_append t (flattenP P')))]
        rw [List.drop_left]
        have hbr' : pyGo t rep (flattenP P') 0 = pyReplace (flattenP P') t rep := by
          subst htok
          rfl
        rw [hbr', ih hP']
        simp [replTok, flattenP]
      · show pyReplace (t ++ flattenP P') tok rep = _
        have hbr : pyReplace (t ++ flattenP P') tok rep =
            pyGo tok rep (t ++ flattenP P') 0 := by
          subst htok
          rfl
        rw [hbr, pyGo_append_no_occ tok rep t (flattenP P')
          (no_occ_in_tok ⟨c0, htok, hl, hg⟩ htOK.1 (fun h => hteq h.symm) (flattenP P'))]
        have hbr' : pyGo tok rep (flattenP P') 0 = pyReplace (flattenP P') tok rep := by
          subst htok
          rfl
        rw [hbr', ih hP']
        simp [replTok, hteq, flattenP]

/-! ## Dict lemmas for the token map -/

theorem dictInsert_keys (d : TokenDict) (k v : List Char) :
    (dictInsert d k v).map Prod.fst =
      if d.any (fun e => e.1 = k) then d.map Prod.fst
      else d.map Prod.fst ++ [k] := by
  unfold dictInsert
  by_cases h : d.any (fun e => e.1 = k) = true
  · rw [if_pos h, if_pos h, List.map_map]
    apply List.map_congr_left
    intro e _
    by_cases hek : e.1 = k
    · simp [hek]
    · simp [hek]
  · rw [if_neg h, if_neg h, List.map_append]
    rfl

theorem dictInsert_keys_nodup {d : TokenDict} (h : (d.map Prod.fst).Nodup)
    (k v : List Char) : ((dictInsert d k v).map Prod.fst).Nodup := by
  rw [dictInsert_keys]
  by_cases hany : d.any (fun e => e.1 = k) = true
  · rw [if_pos hany]
    exact h
  · rw [if_neg hany]
    rw [List.nodup_append]
    refine ⟨h, List.nodup_singleton k, ?_⟩
    intro a ha hb
    rw [List.mem_singleton] at hb
    subst hb
    have hany2 : d.any (fun e => e.1 = a) = false := by
      rwa [Bool.not_eq_true] at hany
    rw [List.any_eq_false] at hany2
    rw [List.mem_map] at ha
    obtain ⟨e, he, hek⟩ := ha
    exact (hany2 e he) (by simpa using hek)

theorem mem_dictInsert_self (d : TokenDict) (k v : List Char) :
    (k, v) ∈ dictInsert d k v := by
  unfold dictInsert
  by_cases h : d.any (fun e => e.1 = k) = true
  · rw [if_pos h]
    rw [List.any_eq_true] at h
    obtain ⟨e, he, hek⟩ := h
    rw [List.mem_map]
    exact ⟨e, he, by simp [show e.1 = k from by simpa using hek]⟩
  · rw [if_neg h]
    exact List.mem_append.mpr (Or.inr (List.mem_singleton.mpr rfl))

theorem mem_dictInsert_of_ne {d : TokenDict} {kv : List Char × List Char}
    (h : kv ∈ d) (k v : List Char) (hne : kv.1 ≠ k) : kv ∈ dictInsert d k v := by
  unfold dictInsert
  by_cases hany : d.any (fun e => e.1 = k) = true
  · rw [if_pos hany, List.mem_map]
    refine ⟨kv, h, ?_⟩
    rw [if_neg (by simpa using hne)]
  · rw [if_neg hany]
    exact List.mem_append.mpr (Or.inl h)

/-- A pair from a key-consistent stream survives into the dict built by
folding `dictInsert`. -/
theorem mem_foldl_dictInsert :
    ∀ (stream : List (List Char × List Char)) (d : TokenDict)
      (kv : List Char × List Char),
      (∀ kv1, kv1 ∈ d ++ stream → ∀ kv2, kv2 ∈ d ++ stream →
        kv1.1 = kv2.1 → kv1.2 = kv2.2) →
      kv ∈ d ++ stream →
      kv ∈ stream.foldl (fun acc e => dictInsert acc e.1 e.2) d := by
  intro stream
  induction stream with
  | nil =>
    intro d kv _ hm
    simpa using hm
  | cons s1 rest ih =>
    intro d kv hcons hm
    show kv ∈ rest.foldl _ (dictInsert d s1.1 s1.2)
    have hsub : ∀ x, x ∈ dictInsert d s1.1 s1.2 ++ rest → x ∈ d ++ s1 :: rest := by
      intro x hx
      rcases List.mem_append.mp hx with hx | hx
      · obtain ⟨xk, xv⟩ := x
        rcases mem_dictInsert hx with h | h
        · exact List.mem_append.mpr (Or.inl h)
        · rw [h.1, h.2]
          exact List.mem_append.mpr (Or.inr (List.mem_cons.mpr (Or.inl rfl)))
      · exact List.mem_append.mpr (Or.inr (List.mem_cons_of_mem s1 hx))
    apply ih
    · intro kv1 h1 kv2 h2 hk
      exact hcons kv1 (hsub kv1 h1) kv2 (hsub kv2 h2) hk
    · rcases List.mem_append.mp hm with hd | hsr
      · by_cases hk : kv.1 = s1.1
        · have hv : kv.2 = s1.2 := hcons kv (List.mem_append.mpr (Or.inl hd)) s1
            (List.mem_append.mpr (Or.inr (List.mem_cons.mpr (Or.inl rfl)))) hk
          have hkv : kv = (s1.1, s1.2) := Prod.ext hk hv
          rw [hkv]
          exact List.mem_append.mpr (Or.inl (mem_dictInsert_self _ _ _))
        · exact List.mem_append.mpr (Or.inl (mem_dictInsert_of_ne hd _ _ hk))
      · rcases List.mem_cons.mp hsr with h1 | h1
        · rw [h1]
          exact List.mem_append.mpr (Or.inl (mem_dictInsert_self _ _ _))
        · exact List.mem_append.mpr (Or.inr h1)

/-! ## Unmasking a well-formed piece list -/

theorem unmask_flatten :
    ∀ (entries : TokenDict) (P : List Piece),
      (entries.map Prod.fst).Nodup →
      (∀ kv ∈ entries, TokShape kv.1 ∧ '<' ∉ kv.2) →
      (∀ p ∈ P, PieceOK p) →
      (∀ t o, Piece.tok t o ∈ P → (t, o) ∈ entries) →
      unmask (flattenP P) entries = flattenP (P.map plainify) := by
  intro entries
  induction entries with
  | nil =>
    intro P _ _ _ hcover
    show flattenP P = _
    rw [show P.map plainify = P.map id from List.map_congr_left ?_, List.map_id]
    intro p hp
    cases p with
    | plain s => rfl
    | tok t o => exact absurd (hcover t o hp) (List.not_mem_nil _)
  | cons e1 rest ih =>
    obtain ⟨tk, rp⟩ := e1
    intro P hnd hent hP hcover
    have hshape : TokShape tk := (hent (tk, rp) (List.mem_cons.mpr (Or.inl rfl))).1
    have hrp : '<' ∉ rp := (hent (tk, rp) (List.mem_cons.mpr (Or.inl rfl))).2
    have hnd2 : (tk, rp).1 ∉ List.map Prod.fst rest ∧ (List.map Prod.fst rest).Nodup := by
      rw [List.map_cons, List.nodup_cons] at hnd
      exact hnd
    have hnotin : tk ∉ rest.map Prod.fst := hnd2.1
    show unmask (pyReplace (flattenP P) tk rp) rest = _
    rw [replace_flatten hshape P hP]
    rw [ih (P.map (replTok tk rp)) hnd2.2
      (fun kv hkv => hent kv (List.mem_cons_of_mem _ hkv)) ?pok ?pcover]
    case pok =>
      intro q hq
      rw [List.mem_map] at hq
      obtain ⟨p, hp, rfl⟩ := hq
      cases p with
      | plain s => exact hP _ hp
      | tok t o =>
        by_cases hteq : t = tk
        · show PieceOK (if t = tk then Piece.plain rp else Piece.tok t o)
          rw [if_pos hteq]
          exact hrp
        · show PieceOK (if t = tk then Piece.plain rp else Piece.tok t o)
          rw [if_neg hteq]
          exact hP _ hp
    case pcover =>
      intro t o hto
      rw [List.mem_map] at hto
      obtain ⟨p, hp, hrepl⟩ := hto
      cases p with
      | plain s => exact absurd hrepl (by simp [replTok])
      | tok t' o' =>
        by_cases hteq : t' = tk
        · rw [show replTok tk rp (Piece.tok t' o') = Piece.plain rp from by
            simp [replTok, hteq]] at hrepl
          exact absurd hrepl (by simp)
        · rw [show replTok tk rp (Piece.tok t' o') = Piece.tok t' o' from by
            simp [replTok, hteq]] at hrepl
          have ht2 : t' = t := (Piece.tok.injEq _ _ _ _ ▸ hrepl).1
          have ho2 : o' = o := (Piece.tok.injEq _ _ _ _ ▸ hrepl).2
          have hp' : Piece.tok t o ∈ P := by
            rw [← ht2, ← ho2]
            exact hp
          rcases List.mem_cons.mp (hcover t o hp') with h1 | h1
          · have htk : t = tk := (Prod.mk.injEq _ _ _ _ ▸ h1).1
            exact absurd (ht2.trans htk) hteq
          · exact h1
    -- flattenP of the double map equals flattenP of the single map
    rw [List.map_map]
    congr 1
    apply List.map_congr_left
    intro p hp
    cases p with
    | plain s => rfl
    | tok t o =>
      by_cases hteq : t = tk
      · have hmem := hcover t o hp
        subst hteq
        rcases List.mem_cons.mp hmem with h1 | h1
        · have ho : o = rp := (Prod.mk.injEq _ _ _ _ ▸ h1).2
          show plainify (if t = t then Piece.plain rp else Piece.tok t o) = _
          rw [if_pos rfl, ho]
          rfl
        · exact absurd (List.mem_map_of_mem Prod.fst h1) hnotin
      · show plainify (if t = tk then Piece.plain rp else Piece.tok t o) = _
        rw [if_neg hteq]

/-! ## The reconstruction loop in terms of pieces -/

theorem emitLoop_toks_eq (key text : List Char) :
    ∀ (es : List PyEntity) (cursor : Int) (parts : List (List Char))
      (toks : TokenDict),
      (emitLoop key text es cursor parts toks).2 =
        (tokStream key text es).foldl (fun acc e => dictInsert acc e.1 e.2) toks := by
  intro es
  induction es with
  | nil => intro cursor parts toks; rfl
  | cons e rest ih =>
    intro cursor parts toks
    show (emitLoop key text rest (e.end_.getD 0) _ _).2 = _
    rw [ih]
    rfl

theorem emitLoop_parts_eq (key text : List Char) :
    ∀ (es : List PyEntity) (cursor : Int) (parts : List (List Char))
      (toks : TokenDict),
      (emitLoop key text es cursor parts toks).1.flatten =
        parts.flatten ++ flattenP (piecesOf key text es cursor) := by
  intro es
  induction es with
  | nil =>
    intro cursor parts toks
    show (if cursor < (text.length : Int) then parts ++ [pySliceFrom text cursor]
      else parts).flatten = _
    unfold piecesOf
    by_cases h : cursor < (text.length : Int)
    · rw [if_pos h, if_pos h]
      simp [flattenP]
    · rw [if_neg h, if_neg h]
      simp [flattenP]
  | cons e rest ih =>
    intro cursor parts toks
    show (emitLoop key text rest (e.end_.getD 0)
        ((if e.start.getD 0 > cursor then
            parts ++ [pySlice text cursor (e.start.getD 0)] else parts) ++
          [mkToken key (e.type.getD [])
            (pySlice text (e.start.getD 0) (e.end_.getD 0))]) _).1.flatten = _
    rw [ih]
    have hpieces : piecesOf key text (e :: rest) cursor =
        (if e.start.getD 0 > cursor then
          [Piece.plain (pySlice text cursor (e.start.getD 0))] else []) ++
        Piece.tok
          (mkToken key (e.type.getD [])
            (pySlice text (e.start.getD 0) (e.end_.getD 0)))
          (pySlice text (e.start.getD 0) (e.end_.getD 0)) ::
        piecesOf key text rest (e.end_.getD 0) := rfl
    rw [hpieces, flattenP_append]
    by_cases h : e.start.getD 0 > cursor
    · rw [if_pos h, if_pos h]
      simp [flattenP]
    · rw [if_neg h, if_neg h]
      simp [flattenP]

/-- Every piece is a slice gap or the token piece of one of the entities. -/
theorem mem_piecesOf {key text : List Char} :
    ∀ {es : List PyEntity} {cursor : Int} {p : Piece},
      p ∈ piecesOf key text es cursor →
      (∃ a b : Int, p = .plain (pySlice text a b)) ∨
      (∃ e ∈ es,
        p = .tok
          (mkToken key (e.type.getD [])
            (pySlice text (e.start.getD 0) (e.end_.getD 0)))
          (pySlice text (e.start.getD 0) (e.end_.getD 0))) := by
  intro es
  induction es with
  | nil =>
    intro cursor p hp
    rw [show piecesOf key text [] cursor =
        (if cursor < (text.length : Int) then
          [Piece.plain (pySliceFrom text cursor)] else []) from rfl] at hp
    by_cases h : cursor < (text.length : Int)
    · rw [if_pos h] at hp
      rw [List.mem_singleton] at hp
      exact Or.inl ⟨cursor, text.length, hp⟩
    · rw [if_neg h] at hp
      exact absurd hp (List.not_mem_nil p)
  | cons e rest ih =>
    intro cursor p hp
    rw [show piecesOf key text (e :: rest) cursor =
        (if e.start.getD 0 > cursor then
          [Piece.plain (pySlice text cursor (e.start.getD 0))] else []) ++
        Piece.tok
          (mkToken key (e.type.getD [])
            (pySlice text (e.start.getD 0) (e.end_.getD 0)))
          (pySlice text (e.start.getD 0) (e.end_.getD 0)) ::
        piecesOf key text rest (e.end_.getD 0) from rfl] at hp
    rcases List.mem_append.mp hp with hp | hp
    · by_cases h : e.start.getD 0 > cursor
      · rw [if_pos h, List.mem_singleton] at hp
        exact Or.inl ⟨cursor, e.start.getD 0, hp⟩
      · rw [if_neg h] at hp
        exact absurd hp (List.not_mem_nil p)
    · rcases List.mem_cons.mp hp with hp | hp
      · exact Or.inr ⟨e, List.mem_cons_self e rest, hp⟩
      · rcases ih hp with h | ⟨e', he', h⟩
        · exact Or.inl h
        · exact Or.inr ⟨e', List.mem_cons_of_mem e he', h⟩

/-- Token pieces correspond to entries of the emitted token stream. -/
theorem tok_mem_piecesOf {key text : List Char} {es : List PyEntity}
    {cursor : Int} {t o : List Char}
    (h : Piece.tok t o ∈ piecesOf key text es cursor) :
    (t, o) ∈ tokStream key text es := by
  rcases mem_piecesOf h with ⟨a, b, habs⟩ | ⟨e, he, heq⟩
  · exact absurd habs (by simp)
  · have h1 : t = mkToken key (e.type.getD [])
        (pySlice text (e.start.getD 0) (e.end_.getD 0)) :=
      (Piece.tok.injEq _ _ _ _ ▸ heq).1
    have h2 : o = pySlice text (e.start.getD 0) (e.end_.getD 0) :=
      (Piece.tok.injEq _ _ _ _ ▸ heq).2
    rw [h1, h2]
    exact List.mem_map_of_mem _ he

theorem lt_not_mem_sha256hex16 {msg : List Nat} : '<' ∉ sha256hex16 msg :=
  fun h => absurd (mem_sha256hex16 h) (by decide)

/-- An emitted token is well shaped whenever the field name carries neither
`<` nor `>`. -/
theorem mkToken_TokShape (key ty seg : List Char) (h1 : '<' ∉ ty)
    (h2 : '>' ∉ ty) : TokShape (mkToken key ty seg) := by
  rw [mkToken_shape key ty seg h2]
  refine ⟨ty ++ str ":TOKEN_" ++ sha256hex16 (utf8 (key ++ str "_" ++ seg)),
    ?_, ?_, ?_⟩
  · simp [str, List.append_assoc]
  · intro hm
    rcases List.mem_append.mp hm with hm | hm
    · rcases List.mem_append.mp hm with hm | hm
      · exact h1 hm
      · exact absurd hm (by decide)
    · exact lt_not_mem_sha256hex16 hm
  · intro hm
    rcases List.mem_append.mp hm with hm | hm
    · rcases List.mem_append.mp hm with hm | hm
      · exact h2 hm
      · exact absurd hm (by decide)
    · exact gt_not_mem_sha256hex16 hm

/-! ## Remaining round-trip helpers -/

theorem foldl_dictInsert_mem :
    ∀ (stream : List (List Char × List Char)) (d : TokenDict)
      (kv : List Char × List Char),
      kv ∈ stream.foldl (fun acc e => dictInsert acc e.1 e.2) d →
      kv ∈ d ∨ kv ∈ stream := by
  intro stream
  induction stream with
  | nil =>
    intro d kv h
    exact Or.inl h
  | cons s1 rest ih =>
    intro d kv h
    rcases ih (dictInsert d s1.1 s1.2) kv h with h1 | h1
    · obtain ⟨k, v⟩ := kv
      rcases mem_dictInsert h1 with h2 | h2
      · exact Or.inl h2
      · rw [h2.1, h2.2]
        exact Or.inr (List.mem_cons.mpr (Or.inl rfl))
    · exact Or.inr (List.mem_cons_of_mem s1 h1)

theorem foldl_dictInsert_keys_nodup :
    ∀ (stream : List (List Char × List Char)) (d : TokenDict),
      (d.map Prod.fst).Nodup →
      ((stream.foldl (fun acc e => dictInsert acc e.1 e.2) d).map Prod.fst).Nodup := by
  intro stream
  induction stream with
  | nil => intro d h; exact h
  | cons s1 rest ih =>
    intro d h
    exact ih (dictInsert d s1.1 s1.2) (dictInsert_keys_nodup h s1.1 s1.2)

/-- Replacing every token by its original restores the text from the cursor
on, given in-bounds, ordered, disjoint entities. -/
theorem piecesOf_restore (key text : List Char) :
    ∀ (es : List PyEntity) (cursor : Int),
      0 ≤ cursor → cursor ≤ (text.length : Int) →
      (∀ e ∈ es, cursor ≤ e.start.getD 0) →
      (∀ e ∈ es, e.start.getD 0 < e.end_.getD 0 ∧
        e.end_.getD 0 ≤ (text.length : Int)) →
      es.Pairwise (fun a b => a.end_.getD 0 ≤ b.start.getD 0) →
      flattenP ((piecesOf key text es cursor).map plainify) =
        pySliceFrom text cursor := by
  intro es
  induction es with
  | nil =>
    intro cursor h0 hlen _ _ _
    rw [show piecesOf key text [] cursor =
        (if cursor < (text.length : Int) then
          [Piece.plain (pySliceFrom text cursor)] else []) from rfl]
    by_cases h : cursor < (text.length : Int)
    · rw [if_pos h]
      simp [flattenP, plainify]
    · rw [if_neg h, pySliceFrom_eq_drop h0]
      exact (List.drop_eq_nil_of_le (by omega)).symm
  | cons e rest ih =>
    intro cursor h0 hlen hc hb hpair
    obtain ⟨hse, hel⟩ := hb e (List.mem_cons_self e rest)
    have hcs : cursor ≤ e.start.getD 0 := hc e (List.mem_cons_self e rest)
    rw [show piecesOf key text (e :: rest) cursor =
        (if e.start.getD 0 > cursor then
          [Piece.plain (pySlice text cursor (e.start.getD 0))] else []) ++
        Piece.tok
          (mkToken key (e.type.getD [])
            (pySlice text (e.start.getD 0) (e.end_.getD 0)))
          (pySlice text (e.start.getD 0) (e.end_.getD 0)) ::
        piecesOf key text rest (e.end_.getD 0) from rfl]
    rw [List.map_append, flattenP_append, List.map_cons]
    have hrest := ih (e.end_.getD 0) (by omega) hel
      (fun e' he' => (List.pairwise_cons.mp hpair).1 e' he')
      (fun e' he' => hb e' (List.mem_cons_of_mem _ he'))
      (List.pairwise_cons.mp hpair).2
    show _ ++ (pySlice text (e.start.getD 0) (e.end_.getD 0) ++
      flattenP ((piecesOf key text rest (e.end_.getD 0)).map plainify)) = _
    rw [hrest]
    unfold pySliceFrom
    rw [pySlice_append_slice (by omega) (by omega) hel le_rfl]
    by_cases h : e.start.getD 0 > cursor
    · rw [if_pos h]
      show pySlice text cursor (e.start.getD 0) ++ [] ++ _ = _
      rw [List.append_nil,
        pySlice_append_slice h0 (by omega) (by omega) le_rfl]
    · rw [if_neg h]
      have hcse : e.start.getD 0 = cursor := by omega
      rw [hcse]
      rfl

/-- All pieces of the reconstruction are well formed when the text carries
no `<` and the field names carry no `<` or `>`. -/
theorem piecesOf_PieceOK {key text : List Char} {es : List PyEntity}
    {cursor : Int} (hlt : '<' ∉ text)
    (hty : ∀ e ∈ es, '<' ∉ e.type.getD [] ∧ '>' ∉ e.type.getD []) :
    ∀ p ∈ piecesOf key text es cursor, PieceOK p := by
  intro p hp
  rcases mem_piecesOf hp with ⟨a, b, heq⟩ | ⟨e, he, heq⟩
  · subst heq
    show '<' ∉ pySlice text a b
    exact fun hm => hlt (mem_of_mem_pySlice hm)
  · subst heq
    refine ⟨mkToken_TokShape _ _ _ (hty e he).1 (hty e he).2, ?_⟩
    exact fun hm => hlt (mem_of_mem_pySlice hm)

/-! ## Claim C1: the mask/unmask round trip -/

/-- C1 counterexample: the round trip is *not* the identity for every text.
Take the text that already contains the very token emitted for its own
entity: `t = "<n:TOKEN_6b835d87908d1675>X"` with the single entity `"X"` at
`[26, 27)` of type `"n"` (`6b835d87908d1675` is the first 16 hex characters
of `sha256("ia_guards_secret_2025_X")`).  The masked text is the token twice,
and `unmask` replaces *both* occurrences, returning `"XX"` instead of `t`. -/
theorem claim_C1_counterexample :
    unmask
        (generate_tokens guardKey (str "<n:TOKEN_6b835d87908d1675>X")
          [{ start := some 26, end_ := some 27, text := some (str "X"),
             type := some (str "n") }]).1
        (generate_tokens guardKey (str "<n:TOKEN_6b835d87908d1675>X")
          [{ start := some 26, end_ := some 27, text := some (str "X"),
             type := some (str "n") }]).2 =
      str "XX" ∧
    unmask
        (generate_tokens guardKey (str "<n:TOKEN_6b835d87908d1675>X")
          [{ start := some 26, end_ := some 27, text := some (str "X"),
             type := some (str "n") }]).1
        (generate_tokens guardKey (str "<n:TOKEN_6b835d87908d1675>X")
          [{ start := some 26, end_ := some 27, text := some (str "X"),
             type := some (str "n") }]).2 ≠
      str "<n:TOKEN_6b835d87908d1675>X" := by
  constructor
  · decide
  · decide

/-- C1 (amended): the round trip `unmask(mask(t)) = t` holds for every text
`t` and entity list provided (i) `t` contains no `'<'` (so no token or token
fragment can pre-exist in `t`), (ii) the field names contain neither `'<'`
nor `'>'`, (iii) the entity spans are within bounds, and (iv) the 16-hex
token digests of distinct masked segments do not collide.  The
counterexample shows (i) cannot be dropped; C9 shows (iii) cannot. -/
theorem claim_C1_roundtrip (key text : List Char) (entities : List PyEntity)
    (hlt : '<' ∉ text)
    (hty : ∀ e ∈ entities, '<' ∉ e.type.getD [] ∧ '>' ∉ e.type.getD [])
    (hbnd : ∀ e ∈ entities, 0 ≤ e.start.getD 0 ∧
      e.end_.getD 0 ≤ (text.length : Int))
    (hinj : ∀ e1 ∈ entities, ∀ e2 ∈ entities,
      mkToken key (e1.type.getD [])
          (pySlice text (e1.start.getD 0) (e1.end_.getD 0)) =
        mkToken key (e2.type.getD [])
          (pySlice text (e2.start.getD 0) (e2.end_.getD 0)) →
      pySlice text (e1.start.getD 0) (e1.end_.getD 0) =
        pySlice text (e2.start.getD 0) (e2.end_.getD 0)) :
    unmask (generate_tokens key text entities).1
      (generate_tokens key text entities).2 = text := by
  unfold generate_tokens
  by_cases hclean : entities.filter validEnt = []
  · rw [if_pos hclean]
    rfl
  · rw [if_neg hclean]
    have hval := selectedOf_valid entities
    have hmem := selectedOf_mem entities
    have hpair := selectedOf_pairwise entities
    have htysel : ∀ e ∈ selectedOf entities,
        '<' ∉ e.type.getD [] ∧ '>' ∉ e.type.getD [] :=
      fun e he => hty e (hmem e he)
    have hPOK : ∀ p ∈ piecesOf key text (selectedOf entities) 0, PieceOK p :=
      piecesOf_PieceOK hlt htysel
    have hmasked : (emitLoop key text (selectedOf entities) 0 [] []).1.flatten =
        flattenP (piecesOf key text (selectedOf entities) 0) := by
      rw [emitLoop_parts_eq]
      rfl
    have hdict := emitLoop_toks_eq key text (selectedOf entities) 0 [] []
    have hstream : ∀ kv ∈ tokStream key text (selectedOf entities),
        ∃ e ∈ selectedOf entities,
          kv = (mkToken key (e.type.getD [])
              (pySlice text (e.start.getD 0) (e.end_.getD 0)),
            pySlice text (e.start.getD 0) (e.end_.getD 0)) := by
      intro kv hkv
      unfold tokStream at hkv
      rw [List.mem_map] at hkv
      obtain ⟨e, he, heq⟩ := hkv
      exact ⟨e, he, heq.symm⟩
    have hcons : ∀ kv1, kv1 ∈ ([] : TokenDict) ++
        tokStream key text (selectedOf entities) → ∀ kv2,
        kv2 ∈ ([] : TokenDict) ++ tokStream key text (selectedOf entities) →
        kv1.1 = kv2.1 → kv1.2 = kv2.2 := by
      intro kv1 h1 kv2 h2 hk
      rw [List.nil_append] at h1 h2
      obtain ⟨e1, he1, rfl⟩ := hstream kv1 h1
      obtain ⟨e2, he2, rfl⟩ := hstream kv2 h2
      exact hinj e1 (hmem e1 he1) e2 (hmem e2 he2) hk
    show unmask ((emitLoop key text (selectedOf entities) 0 [] []).1.flatten)
      ((emitLoop key text (selectedOf entities) 0 [] []).2) = text
    rw [hmasked, hdict]
    rw [unmask_flatten _ _
      (foldl_dictInsert_keys_nodup _ [] List.nodup_nil)
      ?hent hPOK ?hcover]
    case hent =>
      intro kv hkv
      rcases foldl_dictInsert_mem _ [] kv hkv with h | h
      · exact absurd h (List.not_mem_nil kv)
      · obtain ⟨e, he, rfl⟩ := hstream kv h
        refine ⟨mkToken_TokShape _ _ _ (htysel e he).1 (htysel e he).2, ?_⟩
        exact fun hm => hlt (mem_of_mem_pySlice hm)
    case hcover =>
      intro t o hto
      exact mem_foldl_dictInsert _ [] (t, o) hcons
        (List.nil_append _ ▸ tok_mem_piecesOf hto)
    rw [piecesOf_restore key text (selectedOf entities) 0 le_rfl (by simp)
      (fun e he => (hbnd e (hmem e he)).1)
      (fun e he => ⟨by
        have := hval e he
        simp only [validEnt, Bool.and_eq_true, decide_eq_true_eq] at this
        exact this.2, (hbnd e (hmem e he)).2⟩)
      hpair]
    rw [pySliceFrom_eq_drop le_rfl]
    simp

theorem claim_C1_witness :
    '<' ∉ str "hello world" ∧
    unmask (generate_tokens guardKey (str "hello world")
        [{ start := some 3, end_ := some 5, text := some (str "lo"),
           type := some (str "w") }]).1
      (generate_tokens guardKey (str "hello world")
        [{ start := some 3, end_ := some 5, text := some (str "lo"),
           type := some (str "w") }]).2 = str "hello world" :=
  ⟨by decide, claim_C1_roundtrip guardKey (str "hello world")
    [{ start := some 3, end_ := some 5, text := some (str "lo"),
       type := some (str "w") }]
    (by decide) (by decide) (by decide) (by decide)⟩

end AIGuard
